import Mathlib

/- Shallow embedding of the free-Lie-algebra operations of the signatory
   repository.  The sources consist of a header declaring
   signatory::fla_ops (LyndonWords, LyndonWord, compress, compress_backward)
   together with the pybind11 glue in pytorchbind.cpp; every function body
   is absent from the sources, so bodies are modelled from the
   specification (or from the header's own documentation comments), as
   noted on each definition. -/

namespace signatory

/-- Modelled from the spec: misc::LyndonSpec (its defining header misc.hpp is
not among the sources), "immutable value: alphabet size a >= 1, depth
d >= 1.  Determines everything else deterministically." -/
structure LyndonSpec where
  alphabet_size : Nat
  depth : Nat
deriving DecidableEq

namespace fla_ops

/-- Strict lexicographic order on words, as used for std::vector comparison. -/
def lexLt (x y : List Nat) : Prop :=
  List.Lex (fun a b => a < b) x y

instance instDecLexLt : DecidableRel lexLt := fun x y => by
  unfold lexLt
  infer_instance

/-- Modelled from the spec: "a word is Lyndon iff it is strictly smaller than
every one of its proper rotations" (section 4.1 and the glossary). -/
def isLyndon (w : List Nat) : Prop :=
  w ≠ [] ∧ ∀ i, i < w.length → 0 < i → lexLt w (w.rotate i)

instance instDecIsLyndon (w : List Nat) : Decidable (isLyndon w) := by
  unfold isLyndon
  infer_instance

/-- All words of length k over the alphabet 0..a-1, in lexicographic order. -/
def allWords (a : Nat) : Nat → List (List Nat)
  | 0 => [[]]
  | k + 1 => (List.range a).flatMap fun c => (allWords a k).map fun w => c :: w

/-- All Lyndon words of length k over the alphabet 0..a-1, in lexicographic
order. -/
def lyndonList (a k : Nat) : List (List Nat) :=
  (allWords a k).filter fun w => decide (isLyndon w)

/-- Modelled from the spec: signatory::signature_channels (declared through
utilities.hpp, body not among the sources): the "dimension of the
word-coordinate signature", i.e. the total number of nonempty words of
length at most the depth. -/
def signature_channels (a d : Nat) : Nat :=
  ((List.range d).map fun k => a ^ (k + 1)).sum

/-- Index of the first occurrence of a word in a list of words (the length of
the list when absent). -/
def idxOf (w : List Nat) : List (List Nat) → Nat
  | [] => 0
  | v :: rest => if v = w then 0 else idxOf w rest + 1

/-- Position of a word in the sequence of all words of depths 1..d (Lyndon or
not), ordered first by depth and then lexicographically: the header's
documentation of the field tensor_algebra_index. -/
def taIndex (a : Nat) (w : List Nat) : Nat :=
  signature_channels a (w.length - 1) + idxOf w (allWords a w.length)

/-- Extra information carried by a Lyndon word when the bracket-based
constructor was used: the literal letter sequence and the letter sequences
of the two children of its standard factorization (none for single
letters).  The C++ struct stores the children as pointers into the forest;
the model stores the children's letter sequences. -/
structure ExtraLyndonInformation where
  word : List Nat
  first_child : Option (List Nat)
  second_child : Option (List Nat)
deriving DecidableEq

/-- A single Lyndon word of the forest.  The C++ struct carries the two
indices and the optional extra information; the model additionally keeps
the letter sequence itself, which the C++ code knows at construction
time. -/
structure LyndonWord where
  word : List Nat
  compressed_index : Nat
  tensor_algebra_index : Nat
  extra : Option ExtraLyndonInformation
deriving DecidableEq

/-- The forest of all Lyndon words: one sub-sequence per depth 1..d, each in
lexicographic order, together with the total amount and the originating
LyndonSpec. -/
structure LyndonWords where
  classes : List (List LyndonWord)
  amount : Nat
  lyndonspec : LyndonSpec
deriving DecidableEq

/-- Modelled from the spec: the split point of the standard factorization of
a Lyndon word of length at least 2, i.e. the start of "the longest proper
Lyndon suffix v such that the prefix u is also Lyndon" (section 4.2): the
earliest nonzero index whose suffix is Lyndon. -/
def splitPoint (w : List Nat) : Nat :=
  (((List.range w.length).find? fun i =>
      decide (0 < i) && decide (isLyndon (w.drop i)))).getD (w.length - 1)

/-- Modelled from the spec: the ExtraLyndonInformation attached by
LyndonWords::bracket_init: the letter sequence, and for depth > 1 the two
children of the standard factorization (none for single letters). -/
def mkExtra (w : List Nat) : ExtraLyndonInformation :=
  if w.length ≤ 1 then ⟨w, none, none⟩
  else ⟨w, some (w.take (splitPoint w)), some (w.drop (splitPoint w))⟩

/-- Builds the LyndonWord records of one depth class, assigning consecutive
compressed indices starting from c. -/
def mkWords (a : Nat) (ex : Bool) : Nat → List (List Nat) → List LyndonWord
  | _, [] => []
  | c, w :: ws =>
      ⟨w, c, taIndex a w, if ex then some (mkExtra w) else none⟩ ::
        mkWords a ex (c + 1) ws

/-- Builds all depth classes, threading the running compressed index. -/
def mkClasses (a : Nat) (ex : Bool) : Nat → List (List (List Nat)) → List (List LyndonWord)
  | _, [] => []
  | c, cls :: rest => mkWords a ex c cls :: mkClasses a ex (c + cls.length) rest

/-- The letter sequences of all Lyndon words, one list per depth 1..d. -/
def lyndonListsUpTo (a d : Nat) : List (List (List Nat)) :=
  (List.range d).map fun j => lyndonList a (j + 1)

/-- Modelled from the spec: LyndonWords::word_init, "Implements Duval's
algorithm for generating Lyndon words.  Each LyndonWord we produce does
not have any ExtraLyndonInformation set."  The body is not among the
sources; the model produces the specified output: all Lyndon words of
lengths 1..depth, grouped by depth, each group in lexicographic order,
with consecutive compressed indices and no extra information. -/
def LyndonWords.word_init (s : LyndonSpec) : LyndonWords :=
  ⟨mkClasses s.alphabet_size false 0 (lyndonListsUpTo s.alphabet_size s.depth),
   ((lyndonListsUpTo s.alphabet_size s.depth).map List.length).sum,
   s⟩

/-- Modelled from the spec: LyndonWords::bracket_init, "Generates Lyndon
words with their standard bracketing.  Each LyndonWord we produce does
have ExtraLyndonInformation set."  Identical to word_init except that
every word carries its ExtraLyndonInformation. -/
def LyndonWords.bracket_init (s : LyndonSpec) : LyndonWords :=
  ⟨mkClasses s.alphabet_size true 0 (lyndonListsUpTo s.alphabet_size s.depth),
   ((lyndonListsUpTo s.alphabet_size s.depth).map List.length).sum,
   s⟩

/-- All words of the forest in order: depth class by depth class. -/
def flatWords (F : LyndonWords) : List LyndonWord :=
  F.classes.flatten

/-- Modelled from the spec: LyndonWords::delete_extra, "Deletes the
ExtraLyndonInformation associated with each word, if it is present." -/
def LyndonWords.delete_extra (F : LyndonWords) : LyndonWords :=
  ⟨F.classes.map fun cls => cls.map fun w => ⟨w.word, w.compressed_index, w.tensor_algebra_index, none⟩,
   F.amount, F.lyndonspec⟩

/-- Adds a coefficient for a word into an expansion table, merging with an
existing entry for the same word. -/
def addTerm (x : List Nat) (c : Int) : List (List Nat × Int) → List (List Nat × Int)
  | [] => [(x, c)]
  | (y, cy) :: rest => if y = x then (y, cy + c) :: rest else (y, cy) :: addTerm x c rest

/-- Modelled from the spec (section 4.3): the expansion of the bracket [u, v]
from the expansions of u and v, "taking the tensor (concatenation) product
and its sign-reversed swap and accumulating coefficients": every pair of
terms contributes its concatenation with the product coefficient and the
swapped concatenation with the negated product coefficient, accumulated
into one table. -/
def bracketExpansion (e1 e2 : List (List Nat × Int)) : List (List Nat × Int) :=
  (e1.flatMap fun p => e2.flatMap fun q =>
    [(p.1 ++ q.1, p.2 * q.2), (q.1 ++ p.1, -(p.2 * q.2))]).foldl
    (fun acc r => addTerm r.1 r.2 acc) []

/-- Fuelled recursion computing the expansion of a Lyndon word along its
standard factorization; the fuel bounds the recursion depth and the word
length suffices. -/
def expansionFuel : Nat → List Nat → List (List Nat × Int)
  | 0, w => [(w, 1)]
  | fuel + 1, w =>
      if w.length ≤ 1 then [(w, 1)]
      else
        bracketExpansion (expansionFuel fuel (w.take (splitPoint w)))
          (expansionFuel fuel (w.drop (splitPoint w)))

/-- Modelled from the spec (section 4.3): the expansion of a Lyndon word,
"a mapping from letter-sequence to integer coefficient describing how this
Lyndon bracket expands as a signed sum over words in its anagram class";
a leaf's expansion is the singleton mapping of its own letter to 1. -/
def expansion (w : List Nat) : List (List Nat × Int) :=
  expansionFuel w.length w

/-- Modelled from the spec (section 4.3): LyndonWords::to_lyndon_basis emits,
for each entry (word_sequence, coefficient) of each Lyndon word's
expansion, the triple (compressed index of the Lyndon word, tensor algebra
index of the word sequence, coefficient). -/
def LyndonWords.to_lyndon_basis (F : LyndonWords) : List (Nat × Nat × Int) :=
  (flatWords F).flatMap fun w =>
    (expansion w.word).map fun p =>
      (w.compressed_index, taIndex F.lyndonspec.alphabet_size p.1, p.2)

/-- Applies a sparse transform given by (row, column, coefficient) entries to
an input vector, producing the vector of the given output dimension. -/
def apply_transform (entries : List (Nat × Nat × Int)) (dim : Nat) (input : List ℚ) : List ℚ :=
  (List.range dim).map fun i =>
    (entries.map fun e => if e.1 = i then (e.2.2 : ℚ) * input.getD e.2.1 0 else 0).sum

/-- Translated from the source header's documentation of compress: "In the
tensor algebra it is represented by coefficients of all words.  This just
extracts the coefficients of all the Lyndon words."  The input is the flat
word-coefficient buffer over all depths; the output has one entry per
Lyndon word, depth class by depth class. -/
def compress (F : LyndonWords) (input : List ℚ) : List ℚ :=
  (flatWords F).map fun w => input.getD w.tensor_algebra_index 0

/-- Follows the spec's words (section 4.4) rather than the source: "compress
applies the sparse transform from section 4.3 to the word-coefficient
buffer, depth-level by depth-level, yielding one coefficient per Lyndon
word".  Stated for comparison with compress, which the source header
documents as a plain extraction. -/
def compress_spec (F : LyndonWords) (input : List ℚ) : List ℚ :=
  apply_transform (LyndonWords.to_lyndon_basis F) F.amount input

/-- Modelled from the spec (section 4.4): compress_backward "applies the
transpose of the same sparse transform: each word-coefficient's gradient
accumulates coefficient times grad_log_signature[lyndon.compressed_index]
summed over every Lyndon word whose expansion references that word". -/
def compress_backward (s : LyndonSpec) (grad_logsignature : List ℚ) : List ℚ :=
  (List.range (signature_channels s.alphabet_size s.depth)).map fun t =>
    (((LyndonWords.word_init s).to_lyndon_basis).map fun e =>
      if e.2.1 = t then (e.2.2 : ℚ) * grad_logsignature.getD e.1 0 else 0).sum

/-- Modelled from the spec: the anagram class of a word within a forest, "the
set of all words that are permutations of the same letter multiset",
restricted as in the C++ field anagram_class to the Lyndon words of the
forest. -/
def anagramClass (F : LyndonWords) (w : List Nat) : List (List Nat) :=
  ((flatWords F).map fun x => x.word).filter fun v =>
    decide (Multiset.ofList v = Multiset.ofList w)

/-- Modelled from the spec (section 7): the kinds of errors the system
reports. -/
inductive ErrorKind
  | InvalidSpec
  | InvalidMode
  | ModeMismatch
  | ShapeMismatch
  | EmptyPath
deriving DecidableEq

/-- Modelled from the spec: constructing Lyndon-word data from a LyndonSpec,
with "invalid LyndonSpec (alphabet size < 1 or depth < 1) rejected at
construction" as an InvalidSpec failure reported synchronously, and no
other failure mode. -/
def lyndon_words_checked (s : LyndonSpec) : Except ErrorKind LyndonWords :=
  if s.alphabet_size < 1 || s.depth < 1 then Except.error ErrorKind.InvalidSpec
  else Except.ok (LyndonWords.word_init s)

/-- Dot product of two coefficient buffers (truncating to the shorter). -/
def dot (x y : List ℚ) : ℚ :=
  ((x.zip y).map fun p => p.1 * p.2).sum

/-- Search for the first cyclic period of a word at or after p, trying at
most fuel candidates.  Used to define the minimal cyclic period. -/
def firstPeriodFrom (w : List Nat) : Nat → Nat → Nat
  | p, 0 => p
  | p, fuel + 1 => if w.rotate p = w then p else firstPeriodFrom w (p + 1) fuel

/-- The minimal cyclic period of a nonempty word: the least p with 1 <= p
such that rotating by p fixes the word.  The word's length is always such
a period, so the search terminates within it. -/
def minPeriod (w : List Nat) : Nat :=
  firstPeriodFrom w 1 w.length

/-- Concatenation of m copies of a word. -/
def wpow (u : List Nat) (m : Nat) : List Nat :=
  (List.replicate m u).flatten

/- Basic lemmas about the enumeration of words. -/

theorem length_allWords (a k : Nat) : (allWords a k).length = a ^ k := by
  induction k with
  | zero => simp [allWords]
  | succ k ih =>
      simp [allWords, List.length_flatMap, Function.comp_def, ih, pow_succ]
      exact Nat.mul_comm a (a ^ k)

theorem mem_allWords {a k : Nat} {w : List Nat} :
    w ∈ allWords a k ↔ w.length = k ∧ ∀ c ∈ w, c < a := by
  induction k generalizing w with
  | zero =>
      simp only [allWords, List.mem_singleton]
      constructor
      · rintro rfl
        simp
      · rintro ⟨h, -⟩
        exact List.length_eq_zero.mp h
  | succ k ih =>
      simp only [allWords, List.mem_flatMap, List.mem_map, List.mem_range]
      constructor
      · rintro ⟨c, hc, v, hv, rfl⟩
        rcases ih.mp hv with ⟨hl, hall⟩
        refine ⟨by simp [hl], ?_⟩
        intro x hx
        rcases List.mem_cons.mp hx with rfl | hx
        · exact hc
        · exact hall x hx
      · rintro ⟨hl, hall⟩
        cases w with
        | nil => simp at hl
        | cons c v =>
            refine ⟨c, hall c (by simp), v, ih.mpr ⟨by simpa using hl, ?_⟩, rfl⟩
            intro x hx
            exact hall x (by simp [hx])

theorem pairwise_allWords (a k : Nat) : List.Pairwise lexLt (allWords a k) := by
  induction k with
  | zero => simp [allWords]
  | succ k ih =>
      rw [allWords, List.flatMap_def, List.pairwise_flatten]
      refine ⟨?_, ?_⟩
      · intro l hl
        rcases List.mem_map.mp hl with ⟨c, -, rfl⟩
        exact List.pairwise_map.mpr (ih.imp fun h => List.Lex.cons h)
      · refine List.pairwise_map.mpr ?_
        refine (List.pairwise_lt_range a).imp ?_
        intro c c' hcc
        intro x hx y hy
        rcases List.mem_map.mp hx with ⟨v, -, rfl⟩
        rcases List.mem_map.mp hy with ⟨v', -, rfl⟩
        exact List.Lex.rel hcc

theorem lexLt_irrefl (x : List Nat) : ¬ lexLt x x := by
  unfold lexLt
  induction x with
  | nil => intro h; cases h
  | cons c xs ih =>
      intro h
      cases h with
      | cons h => exact ih h
      | rel h => exact lt_irrefl _ h

theorem nodup_allWords (a k : Nat) : (allWords a k).Nodup := by
  refine List.Pairwise.imp ?_ (pairwise_allWords a k)
  intro x y h
  intro hxy
  subst hxy
  exact lexLt_irrefl x h

theorem mem_lyndonList {a k : Nat} {w : List Nat} :
    w ∈ lyndonList a k ↔ (w.length = k ∧ ∀ c ∈ w, c < a) ∧ isLyndon w := by
  simp [lyndonList, List.mem_filter, mem_allWords]

theorem pairwise_lyndonList (a k : Nat) : List.Pairwise lexLt (lyndonList a k) :=
  List.Pairwise.filter _ (pairwise_allWords a k)

theorem isLyndon_singleton (c : Nat) : isLyndon [c] := by
  constructor
  · simp
  · intro i hi hi0
    simp at hi
    omega

theorem lyndonList_one (a : Nat) : lyndonList a 1 = (List.range a).map fun c => [c] := by
  have h1 : allWords a 1 = (List.range a).map fun c => [c] := by
    show ((List.range a).flatMap fun c => (allWords a 0).map fun w => c :: w) = _
    unfold allWords
    induction a with
    | zero => rfl
    | succ n ih => rw [List.range_succ]; simp_all
  rw [lyndonList, h1, List.filter_eq_self.mpr]
  intro v hv
  rcases List.mem_map.mp hv with ⟨c, -, rfl⟩
  exact decide_eq_true (isLyndon_singleton c)

/- Structural lemmas about the forest construction. -/

theorem mkWords_length (a : Nat) (ex : Bool) (c : Nat) (L : List (List Nat)) :
    (mkWords a ex c L).length = L.length := by
  induction L generalizing c with
  | nil => rfl
  | cons w ws ih => simp [mkWords, ih]

theorem mkWords_get (a : Nat) (ex : Bool) (c : Nat) (L : List (List Nat)) (i : Nat)
    (h : i < (mkWords a ex c L).length) (h' : i < L.length) :
    (mkWords a ex c L).get ⟨i, h⟩ =
      ⟨L.get ⟨i, h'⟩, c + i, taIndex a (L.get ⟨i, h'⟩),
        if ex then some (mkExtra (L.get ⟨i, h'⟩)) else none⟩ := by
  induction L generalizing c i with
  | nil => simp at h'
  | cons w ws ih =>
      cases i with
      | zero => rfl
      | succ i =>
          have hlen : i < (mkWords a ex (c + 1) ws).length := by
            simpa [mkWords, mkWords_length] using h'
          have h'' : i < ws.length := by simpa using h'
          show (mkWords a ex (c + 1) ws).get ⟨i, hlen⟩ = _
          rw [ih (c + 1) i hlen h'']
          have hc : c + 1 + i = c + (i + 1) := by omega
          simp [hc]

theorem mkWords_map_word (a : Nat) (ex : Bool) (c : Nat) (L : List (List Nat)) :
    (mkWords a ex c L).map (fun x => x.word) = L := by
  induction L generalizing c with
  | nil => rfl
  | cons w ws ih => simp [mkWords, ih]

theorem extra_of_mem_mkWords {a : Nat} {ex : Bool} {c : Nat} {L : List (List Nat)}
    {x : LyndonWord} (hx : x ∈ mkWords a ex c L) :
    x.extra = if ex then some (mkExtra x.word) else none := by
  induction L generalizing c with
  | nil => cases hx
  | cons w ws ih =>
      rcases List.mem_cons.mp hx with rfl | hx
      · rfl
      · exact ih hx

theorem taIndex_of_mem_mkWords {a : Nat} {ex : Bool} {c : Nat} {L : List (List Nat)}
    {x : LyndonWord} (hx : x ∈ mkWords a ex c L) :
    x.tensor_algebra_index = taIndex a x.word := by
  induction L generalizing c with
  | nil => cases hx
  | cons w ws ih =>
      rcases List.mem_cons.mp hx with rfl | hx
      · rfl
      · exact ih hx

theorem mkWords_append (a : Nat) (ex : Bool) (c : Nat) (L1 L2 : List (List Nat)) :
    mkWords a ex c (L1 ++ L2) = mkWords a ex c L1 ++ mkWords a ex (c + L1.length) L2 := by
  induction L1 generalizing c with
  | nil => simp [mkWords]
  | cons w ws ih =>
      simp only [List.cons_append, mkWords, List.length_cons, List.append_eq]
      have hc : c + (ws.length + 1) = c + 1 + ws.length := by omega
      rw [ih (c + 1), hc]

theorem mkClasses_length (a : Nat) (ex : Bool) (c : Nat) (L : List (List (List Nat))) :
    (mkClasses a ex c L).length = L.length := by
  induction L generalizing c with
  | nil => rfl
  | cons cls rest ih => simp [mkClasses, ih]

theorem mkClasses_map_map_word (a : Nat) (ex : Bool) (c : Nat) (L : List (List (List Nat))) :
    (mkClasses a ex c L).map (List.map fun x => x.word) = L := by
  induction L generalizing c with
  | nil => rfl
  | cons cls rest ih => simp [mkClasses, ih, mkWords_map_word]

theorem flatten_mkClasses (a : Nat) (ex : Bool) (c : Nat) (L : List (List (List Nat))) :
    (mkClasses a ex c L).flatten = mkWords a ex c L.flatten := by
  induction L generalizing c with
  | nil => rfl
  | cons cls rest ih =>
      simp only [mkClasses, List.flatten_cons, ih, List.flatten, mkWords_append]

theorem flatWords_word_init (s : LyndonSpec) :
    flatWords (LyndonWords.word_init s) =
      mkWords s.alphabet_size false 0 (lyndonListsUpTo s.alphabet_size s.depth).flatten := by
  simp [flatWords, LyndonWords.word_init, flatten_mkClasses]

theorem flatWords_bracket_init (s : LyndonSpec) :
    flatWords (LyndonWords.bracket_init s) =
      mkWords s.alphabet_size true 0 (lyndonListsUpTo s.alphabet_size s.depth).flatten := by
  simp [flatWords, LyndonWords.bracket_init, flatten_mkClasses]

theorem compressed_index_mkWords (a : Nat) (ex : Bool) (c : Nat) (L : List (List Nat))
    (i : Nat) (h : i < (mkWords a ex c L).length) :
    ((mkWords a ex c L).get ⟨i, h⟩).compressed_index = c + i := by
  have h' : i < L.length := by simpa [mkWords_length] using h
  rw [mkWords_get a ex c L i h h']

theorem amount_word_init (s : LyndonSpec) :
    (LyndonWords.word_init s).amount = (flatWords (LyndonWords.word_init s)).length := by
  rw [flatWords_word_init, mkWords_length, List.length_flatten]
  rfl

theorem amount_bracket_init (s : LyndonSpec) :
    (LyndonWords.bracket_init s).amount = (flatWords (LyndonWords.bracket_init s)).length := by
  rw [flatWords_bracket_init, mkWords_length, List.length_flatten]
  rfl

theorem compressed_index_lt_amount {s : LyndonSpec} {x : LyndonWord}
    (hx : x ∈ flatWords (LyndonWords.word_init s)) :
    x.compressed_index < (LyndonWords.word_init s).amount := by
  rw [amount_word_init]
  rw [flatWords_word_init] at hx ⊢
  rcases List.mem_iff_get.mp hx with ⟨⟨i, hi⟩, hget⟩
  have h2 := compressed_index_mkWords s.alphabet_size false 0
      (lyndonListsUpTo s.alphabet_size s.depth).flatten i hi
  have h3 := congrArg LyndonWord.compressed_index hget
  rw [h2] at h3
  omega

theorem map_eq_self_of {α : Type _} {f : α → α} {l : List α}
    (h : ∀ x ∈ l, f x = x) : l.map f = l := by
  induction l with
  | nil => rfl
  | cons x xs ih =>
      rw [List.map_cons, h x (by simp), ih]
      intro y hy
      exact h y (by simp [hy])

theorem getD_map {α β : Type _} (f : α → β) (l : List α) (j : Nat) (d : α) :
    (l.map f).getD j (f d) = f (l.getD j d) := by
  induction l generalizing j with
  | nil => rfl
  | cons x xs ih => cases j <;> simp [ih]

theorem getD_range_map {β : Type _} (g : Nat → β) (dflt : β) {d j : Nat} (hj : j < d) :
    ((List.range d).map g).getD j dflt = g j := by
  have hl : j < ((List.range d).map g).length := by simpa using hj
  rw [List.getD_eq_getElem _ _ hl]
  simp

theorem signature_channels_succ (a d : Nat) :
    signature_channels a (d + 1) = signature_channels a d + a ^ (d + 1) := by
  simp [signature_channels, List.range_succ]

theorem signature_channels_mono (a : Nat) {k d : Nat} (h : k ≤ d) :
    signature_channels a k ≤ signature_channels a d := by
  induction d with
  | zero => simp [Nat.le_zero.mp h]
  | succ d ih =>
      by_cases hk : k ≤ d
      · exact le_trans (ih hk) (by rw [signature_channels_succ]; omega)
      · have hEq : k = d + 1 := by omega
        subst hEq
        exact le_refl _

theorem idxOf_lt_length {w : List Nat} {L : List (List Nat)} (h : w ∈ L) :
    idxOf w L < L.length := by
  induction L with
  | nil => cases h
  | cons v rest ih =>
      by_cases hv : v = w
      · simp [idxOf, hv]
      · rcases List.mem_cons.mp h with rfl | h
        · exact absurd rfl hv
        · simp only [idxOf, if_neg hv, List.length_cons]
          exact Nat.succ_lt_succ (ih h)

theorem getD_idxOf {w : List Nat} {L : List (List Nat)} (h : w ∈ L) :
    L.getD (idxOf w L) [] = w := by
  induction L with
  | nil => cases h
  | cons v rest ih =>
      by_cases hv : v = w
      · simp [idxOf, hv]
      · rcases List.mem_cons.mp h with rfl | h
        · exact absurd rfl hv
        · simp only [idxOf, if_neg hv]
          exact ih h

theorem taIndex_lt_signature_channels {a d : Nat} {w : List Nat}
    (h1 : 1 ≤ w.length) (h2 : w.length ≤ d) (h3 : ∀ c ∈ w, c < a) :
    taIndex a w < signature_channels a d := by
  have hmem : w ∈ allWords a w.length := mem_allWords.mpr ⟨rfl, h3⟩
  have hidx : idxOf w (allWords a w.length) < (allWords a w.length).length :=
    idxOf_lt_length hmem
  rw [length_allWords] at hidx
  have hstep : taIndex a w < signature_channels a w.length := by
    unfold taIndex
    obtain ⟨k, hk⟩ : ∃ k, w.length = k + 1 := ⟨w.length - 1, by omega⟩
    rw [hk] at hidx ⊢
    simp only [Nat.add_sub_cancel]
    rw [signature_channels_succ]
    omega
  exact lt_of_lt_of_le hstep (signature_channels_mono a h2)

theorem mem_flatten_lyndonListsUpTo {a d : Nat} {v : List Nat} :
    v ∈ (lyndonListsUpTo a d).flatten ↔
      1 ≤ v.length ∧ v.length ≤ d ∧ (∀ c ∈ v, c < a) ∧ isLyndon v := by
  simp only [lyndonListsUpTo, List.mem_flatten, List.mem_map, List.mem_range]
  constructor
  · rintro ⟨cls, ⟨j, hj, rfl⟩, hv⟩
    rcases mem_lyndonList.mp hv with ⟨⟨hl, hall⟩, hly⟩
    exact ⟨by omega, by omega, hall, hly⟩
  · rintro ⟨h1, h2, hall, hly⟩
    refine ⟨lyndonList a v.length, ⟨v.length - 1, by omega, by rw [Nat.sub_add_cancel h1]⟩, ?_⟩
    exact mem_lyndonList.mpr ⟨⟨rfl, hall⟩, hly⟩

theorem word_of_mem_mkWords {a : Nat} {ex : Bool} {c : Nat} {L : List (List Nat)}
    {x : LyndonWord} (hx : x ∈ mkWords a ex c L) : x.word ∈ L := by
  rw [← mkWords_map_word a ex c L]
  exact List.mem_map.mpr ⟨x, hx, rfl⟩

/-- Default LyndonWord used with List.getD in statements. -/
def defaultWord : LyndonWord := ⟨[], 0, 0, none⟩

theorem compressed_index_mkWords_getD (a : Nat) (ex : Bool) (c : Nat)
    (L : List (List Nat)) (i : Nat) (h : i < L.length) :
    ((mkWords a ex c L).getD i defaultWord).compressed_index = c + i := by
  have hl : i < (mkWords a ex c L).length := by rw [mkWords_length]; exact h
  rw [List.getD_eq_getElem _ _ hl]
  show ((mkWords a ex c L).get ⟨i, hl⟩).compressed_index = c + i
  rw [mkWords_get a ex c L i hl h]

/- Claim theorems. -/

/-- C5: iterating the depth classes of a forest produced by word_init or by
bracket_init in order, and the words inside each class in order, visits
compressed_index values 0, 1, 2, ... in succession: the i-th word of the
flattened forest has compressed_index i. -/
theorem C5_compressed_index_enumeration (s : LyndonSpec) (i : Nat)
    (h1 : i < (flatWords (LyndonWords.word_init s)).length)
    (h2 : i < (flatWords (LyndonWords.bracket_init s)).length) :
    ((flatWords (LyndonWords.word_init s)).getD i defaultWord).compressed_index = i ∧
    ((flatWords (LyndonWords.bracket_init s)).getD i defaultWord).compressed_index = i := by
  rw [flatWords_word_init] at h1 ⊢
  rw [flatWords_bracket_init] at h2 ⊢
  rw [mkWords_length] at h1 h2
  rw [compressed_index_mkWords_getD _ _ _ _ _ h1, compressed_index_mkWords_getD _ _ _ _ _ h2]
  omega

/-- Witness for C5 at the concrete spec (2, 2) and position 2. -/
theorem C5_witness :
    ((flatWords (LyndonWords.word_init ⟨2, 2⟩)).getD 2 defaultWord).compressed_index = 2 ∧
    ((flatWords (LyndonWords.bracket_init ⟨2, 2⟩)).getD 2 defaultWord).compressed_index = 2 :=
  C5_compressed_index_enumeration ⟨2, 2⟩ 2 (by decide) (by decide)

/-- C7: signature_channels gives the dimension of the word-coordinate
signature, the total number of nonempty words of length at most the depth;
for alphabet size 2 and depth 2 it is 6, the Lyndon words are [0], [1] at
depth 1 and [0, 1] at depth 2, and the log-signature dimension is 3. -/
theorem C7_signature_channels (a d : Nat) :
    signature_channels a d = ((List.range d).map fun k => (allWords a (k + 1)).length).sum ∧
    signature_channels 2 2 = 6 ∧
    lyndonList 2 1 = [[0], [1]] ∧
    lyndonList 2 2 = [[0, 1]] ∧
    (LyndonWords.word_init ⟨2, 2⟩).amount = 3 := by
  refine ⟨?_, by decide, by decide, by decide, by decide⟩
  unfold signature_channels
  rw [List.map_congr_left]
  intro k _
  rw [length_allWords]

/-- C8: constructing Lyndon-word data from an invalid LyndonSpec (alphabet
size < 1 or depth < 1) fails synchronously with InvalidSpec and no partial
result, and InvalidSpec is the only failure mode; a valid spec yields the
complete forest. -/
theorem C8_invalid_spec_rejected (s : LyndonSpec) :
    (lyndon_words_checked s = Except.error ErrorKind.InvalidSpec ↔
      s.alphabet_size < 1 ∨ s.depth < 1) ∧
    (∀ e : ErrorKind, lyndon_words_checked s = Except.error e → e = ErrorKind.InvalidSpec) ∧
    (¬(s.alphabet_size < 1 ∨ s.depth < 1) →
      lyndon_words_checked s = Except.ok (LyndonWords.word_init s)) := by
  by_cases h : s.alphabet_size < 1 ∨ s.depth < 1
  · have hb : (decide (s.alphabet_size < 1) || decide (s.depth < 1)) = true := by
      rcases h with h | h <;> simp [h]
    have hrw : lyndon_words_checked s = Except.error ErrorKind.InvalidSpec := by
      unfold lyndon_words_checked
      rw [hb]
      rfl
    refine ⟨⟨fun _ => h, fun _ => hrw⟩, ?_, fun hc => absurd h hc⟩
    intro e he
    rw [hrw] at he
    exact (Except.error.inj he).symm
  · have hb : (decide (s.alphabet_size < 1) || decide (s.depth < 1)) = false := by
      push_neg at h
      simp only [Bool.or_eq_false_iff, decide_eq_false_iff_not]
      exact ⟨Nat.not_lt.mpr h.1, Nat.not_lt.mpr h.2⟩
    have hrw : lyndon_words_checked s = Except.ok (LyndonWords.word_init s) := by
      unfold lyndon_words_checked
      rw [hb]
      rfl
    refine ⟨?_, ?_, fun _ => hrw⟩
    · constructor
      · intro he
        rw [hrw] at he
        cases he
      · intro hh
        exact absurd hh h
    · intro e he
      rw [hrw] at he
      cases he

/-- Witness for C8: the invalid spec (0, 2) is rejected with InvalidSpec and
the valid spec (2, 2) yields the complete forest. -/
theorem C8_witness :
    lyndon_words_checked ⟨0, 2⟩ = Except.error ErrorKind.InvalidSpec ∧
    lyndon_words_checked ⟨2, 2⟩ = Except.ok (LyndonWords.word_init ⟨2, 2⟩) :=
  ⟨(C8_invalid_spec_rejected ⟨0, 2⟩).1.mpr (Or.inl (by decide)),
   (C8_invalid_spec_rejected ⟨2, 2⟩).2.2 (by decide)⟩

/-- C9: a forest produced by word_init or bracket_init exposes the
originating LyndonSpec and the total number of Lyndon words it owns. -/
theorem C9_exposes_amount_and_spec (s : LyndonSpec) :
    (LyndonWords.word_init s).lyndonspec = s ∧
    (LyndonWords.word_init s).amount = (flatWords (LyndonWords.word_init s)).length ∧
    (LyndonWords.bracket_init s).lyndonspec = s ∧
    (LyndonWords.bracket_init s).amount = (flatWords (LyndonWords.bracket_init s)).length :=
  ⟨rfl, amount_word_init s, rfl, amount_bracket_init s⟩

/-- C10: delete_extra is a no-op on a word whose extra information is absent,
it is idempotent on every forest, and on a forest produced by word_init
(whose words never had extra information) it is the identity. -/
theorem C10_delete_extra (F : LyndonWords) (s : LyndonSpec) (x : LyndonWord)
    (hx : x.extra = none) :
    (⟨x.word, x.compressed_index, x.tensor_algebra_index, none⟩ : LyndonWord) = x ∧
    LyndonWords.delete_extra (LyndonWords.delete_extra F) = LyndonWords.delete_extra F ∧
    LyndonWords.delete_extra (LyndonWords.word_init s) = LyndonWords.word_init s := by
  refine ⟨?_, ?_, ?_⟩
  · cases x with
    | mk w ci ta e => cases hx; rfl
  · unfold LyndonWords.delete_extra
    simp [List.map_map, Function.comp_def]
  · have hcl : ∀ y ∈ flatWords (LyndonWords.word_init s), y.extra = none := by
      intro y hy
      rw [flatWords_word_init] at hy
      simpa using extra_of_mem_mkWords hy
    unfold LyndonWords.delete_extra
    have hmap : ((LyndonWords.word_init s).classes.map fun cls => cls.map fun w =>
        (⟨w.word, w.compressed_index, w.tensor_algebra_index, none⟩ : LyndonWord)) =
        (LyndonWords.word_init s).classes := by
      refine map_eq_self_of ?_
      intro cls hcls
      refine map_eq_self_of ?_
      intro y hy
      have hye := hcl y (List.mem_flatten.mpr ⟨cls, hcls, hy⟩)
      cases y with
      | mk w ci ta e => cases hye; rfl
    rw [hmap]

/-- Witness for C10 at a concrete word, forest and spec. -/
theorem C10_witness :
    (defaultWord.extra = none) ∧
    LyndonWords.delete_extra (LyndonWords.delete_extra (LyndonWords.bracket_init ⟨2, 2⟩)) =
      LyndonWords.delete_extra (LyndonWords.bracket_init ⟨2, 2⟩) ∧
    LyndonWords.delete_extra (LyndonWords.word_init ⟨2, 2⟩) = LyndonWords.word_init ⟨2, 2⟩ := by
  refine ⟨rfl, ?_⟩
  exact (C10_delete_extra (LyndonWords.bracket_init ⟨2, 2⟩) ⟨2, 2⟩ defaultWord rfl).2

/-- C2: for a valid LyndonSpec, word_init produces exactly the Lyndon words
of lengths 1..depth: one class per depth whose words are precisely the
Lyndon words of that length in lexicographic order, every produced word
strictly lexicographically smaller than all of its non-trivial rotations,
every Lyndon word of an admissible length present, and no produced word
has ExtraLyndonInformation set. -/
theorem C2_word_init_produces_lyndon_words (s : LyndonSpec)
    (ha : 1 ≤ s.alphabet_size) (hd : 1 ≤ s.depth) :
    (LyndonWords.word_init s).classes.length = s.depth ∧
    (∀ j, j < s.depth →
      ((LyndonWords.word_init s).classes.getD j []).map (fun x => x.word) =
        lyndonList s.alphabet_size (j + 1)) ∧
    (∀ x ∈ flatWords (LyndonWords.word_init s),
      x.word ≠ [] ∧ (∀ i, i < x.word.length → 0 < i → lexLt x.word (x.word.rotate i)) ∧
        x.extra = none) ∧
    (∀ v : List Nat, 1 ≤ v.length → v.length ≤ s.depth →
      (∀ c ∈ v, c < s.alphabet_size) → isLyndon v →
      ∃ x ∈ flatWords (LyndonWords.word_init s), x.word = v) ∧
    (∀ j, j < s.depth →
      List.Pairwise lexLt
        (((LyndonWords.word_init s).classes.getD j []).map fun x => x.word)) := by
  have hclen : (LyndonWords.word_init s).classes.length = s.depth := by
    show (mkClasses _ _ _ _).length = s.depth
    rw [mkClasses_length]
    simp [lyndonListsUpTo]
  have hclass : ∀ j, j < s.depth →
      ((LyndonWords.word_init s).classes.getD j []).map (fun x => x.word) =
        lyndonList s.alphabet_size (j + 1) := by
    intro j hj
    have hgd : ((LyndonWords.word_init s).classes.map
          (List.map fun x : LyndonWord => x.word)).getD j [] =
        ((LyndonWords.word_init s).classes.getD j []).map (fun x => x.word) := by
      simpa using getD_map (List.map fun x : LyndonWord => x.word)
        (LyndonWords.word_init s).classes j []
    have hmapped : (LyndonWords.word_init s).classes.map
          (List.map fun x : LyndonWord => x.word) =
        lyndonListsUpTo s.alphabet_size s.depth :=
      mkClasses_map_map_word s.alphabet_size false 0 (lyndonListsUpTo s.alphabet_size s.depth)
    rw [← hgd, hmapped]
    show (lyndonListsUpTo s.alphabet_size s.depth).getD j [] = _
    unfold lyndonListsUpTo
    exact getD_range_map _ _ hj
  refine ⟨hclen, hclass, ?_, ?_, ?_⟩
  · intro x hx
    rw [flatWords_word_init] at hx
    have hword := word_of_mem_mkWords hx
    have hly := (mem_flatten_lyndonListsUpTo.mp hword).2.2.2
    have hex := extra_of_mem_mkWords hx
    exact ⟨hly.1, hly.2, by simpa using hex⟩
  · intro v h1 h2 h3 h4
    have hv : v ∈ (lyndonListsUpTo s.alphabet_size s.depth).flatten :=
      mem_flatten_lyndonListsUpTo.mpr ⟨h1, h2, h3, h4⟩
    rw [flatWords_word_init]
    have := mkWords_map_word s.alphabet_size false 0
      (lyndonListsUpTo s.alphabet_size s.depth).flatten
    rw [← this] at hv
    rcases List.mem_map.mp hv with ⟨x, hx, hxw⟩
    exact ⟨x, hx, hxw⟩
  · intro j hj
    rw [hclass j hj]
    exact pairwise_lyndonList s.alphabet_size (j + 1)

/-- Witness for C2 at the concrete spec (2, 2). -/
theorem C2_witness :
    (LyndonWords.word_init ⟨2, 2⟩).classes.length = 2 ∧
    ((LyndonWords.word_init ⟨2, 2⟩).classes.getD 1 []).map (fun x => x.word) =
      lyndonList 2 2 :=
  ⟨(C2_word_init_produces_lyndon_words ⟨2, 2⟩ (by decide) (by decide)).1,
   (C2_word_init_produces_lyndon_words ⟨2, 2⟩ (by decide) (by decide)).2.1 1 (by decide)⟩

theorem nodup_flatten_lyndonListsUpTo (a d : Nat) :
    (lyndonListsUpTo a d).flatten.Nodup := by
  rw [List.nodup_flatten]
  constructor
  · intro l hl
    simp only [lyndonListsUpTo, List.mem_map, List.mem_range] at hl
    rcases hl with ⟨j, hj, rfl⟩
    exact List.Nodup.filter _ (nodup_allWords a (j + 1))
  · unfold lyndonListsUpTo
    refine List.pairwise_map.mpr ?_
    refine (List.pairwise_lt_range d).imp ?_
    intro j k hjk
    rw [List.disjoint_left]
    intro v hv hv2
    have h1 := (mem_lyndonList.mp hv).1.1
    have h2 := (mem_lyndonList.mp hv2).1.1
    omega

theorem anagramClass_singleton {s : LyndonSpec} {c : Nat} (hc : c < s.alphabet_size)
    (hd : 1 ≤ s.depth) :
    anagramClass (LyndonWords.bracket_init s) [c] = [[c]] := by
  unfold anagramClass
  rw [flatWords_bracket_init, mkWords_map_word]
  have hcongr : List.filter (fun v => decide (Multiset.ofList v = Multiset.ofList [c]))
      (lyndonListsUpTo s.alphabet_size s.depth).flatten =
      List.filter (fun v => decide (v = [c]))
        (lyndonListsUpTo s.alphabet_size s.depth).flatten := by
    refine List.filter_congr ?_
    intro v hv
    exact decide_eq_decide.mpr (Multiset.coe_eq_coe.trans List.perm_singleton)
  have hmem : [c] ∈ (lyndonListsUpTo s.alphabet_size s.depth).flatten := by
    refine mem_flatten_lyndonListsUpTo.mpr ⟨by simp, by simpa using hd, ?_, isLyndon_singleton c⟩
    intro y hy
    rcases List.mem_singleton.mp hy with rfl
    exact hc
  rw [hcongr, List.filter_eq,
    List.count_eq_one_of_mem (nodup_flatten_lyndonListsUpTo _ _) hmem]
  rfl

/-- C3: in a forest produced by bracket_init, a word of depth 1 carries its
extra information with no children and its anagram class within the forest
is the singleton containing itself, while a word of depth greater than 1
carries exactly two children whose letter sequences concatenate to the
parent's letter sequence. -/
theorem C3_bracket_standard_factorization (s : LyndonSpec) (x : LyndonWord)
    (hx : x ∈ flatWords (LyndonWords.bracket_init s)) :
    (x.word.length = 1 →
      x.extra = some ⟨x.word, none, none⟩ ∧
      anagramClass (LyndonWords.bracket_init s) x.word = [x.word]) ∧
    (1 < x.word.length →
      ∃ u v, x.extra = some ⟨x.word, some u, some v⟩ ∧ u ++ v = x.word) := by
  rw [flatWords_bracket_init] at hx
  have hex : x.extra = some (mkExtra x.word) := by
    simpa using extra_of_mem_mkWords hx
  have hword := mem_flatten_lyndonListsUpTo.mp (word_of_mem_mkWords hx)
  constructor
  · intro hlen
    rcases List.length_eq_one.mp hlen with ⟨c, hc⟩
    have hca : c < s.alphabet_size := by
      refine hword.2.2.1 c ?_
      rw [hc]
      simp
    have hd : 1 ≤ s.depth := le_trans (by omega) hword.2.1
    constructor
    · rw [hex]
      unfold mkExtra
      rw [if_pos (by omega)]
    · rw [hc]
      rw [anagramClass_singleton hca hd]
  · intro hlen
    refine ⟨x.word.take (splitPoint x.word), x.word.drop (splitPoint x.word), ?_,
      List.take_append_drop _ _⟩
    rw [hex]
    unfold mkExtra
    rw [if_neg (by omega)]

/-- Witness for C3 at the depth-1 Lyndon word [0] of the forest over the
alphabet of size 2. -/
theorem C3_witness :
    ((flatWords (LyndonWords.bracket_init ⟨2, 2⟩)).getD 0 defaultWord).extra =
      some ⟨((flatWords (LyndonWords.bracket_init ⟨2, 2⟩)).getD 0 defaultWord).word,
        none, none⟩ ∧
    anagramClass (LyndonWords.bracket_init ⟨2, 2⟩)
        ((flatWords (LyndonWords.bracket_init ⟨2, 2⟩)).getD 0 defaultWord).word =
      [((flatWords (LyndonWords.bracket_init ⟨2, 2⟩)).getD 0 defaultWord).word] :=
  (C3_bracket_standard_factorization ⟨2, 2⟩
      ((flatWords (LyndonWords.bracket_init ⟨2, 2⟩)).getD 0 defaultWord)
      (by decide)).1 (by decide)

/- Lemmas about expansions and the sparse transform. -/

theorem mem_addTerm_key {x : List Nat} {c : Int} {l : List (List Nat × Int)}
    {q : List Nat × Int} (hq : q ∈ addTerm x c l) :
    q.1 = x ∨ ∃ r ∈ l, q.1 = r.1 := by
  induction l with
  | nil =>
      simp only [addTerm, List.mem_singleton] at hq
      subst hq
      exact Or.inl rfl
  | cons r rest ih =>
      rcases r with ⟨y, cy⟩
      by_cases hy : y = x
      · simp only [addTerm, if_pos hy] at hq
        rcases List.mem_cons.mp hq with rfl | hq
        · exact Or.inl hy
        · exact Or.inr ⟨q, by simp [hq], rfl⟩
      · simp only [addTerm, if_neg hy] at hq
        rcases List.mem_cons.mp hq with rfl | hq
        · exact Or.inr ⟨(y, cy), by simp, rfl⟩
        · rcases ih hq with h | ⟨r, hr, hrr⟩
          · exact Or.inl h
          · exact Or.inr ⟨r, by simp [hr], hrr⟩

theorem key_mem_foldl_addTerm :
    ∀ (terms acc : List (List Nat × Int)) (q : List Nat × Int),
      q ∈ terms.foldl (fun acc2 r => addTerm r.1 r.2 acc2) acc →
      (∃ r ∈ acc, q.1 = r.1) ∨ ∃ r ∈ terms, q.1 = r.1 := by
  intro terms
  induction terms with
  | nil => exact fun acc q hq => Or.inl ⟨q, hq, rfl⟩
  | cons r rest ih =>
      intro acc q hq
      rcases ih (addTerm r.1 r.2 acc) q hq with ⟨r2, hr2, hq2⟩ | ⟨r2, hr2, hq2⟩
      · rcases mem_addTerm_key hr2 with h | ⟨r3, hr3, h3⟩
        · exact Or.inr ⟨r, by simp, by rw [hq2, h]⟩
        · exact Or.inl ⟨r3, hr3, by rw [hq2, h3]⟩
      · exact Or.inr ⟨r2, by simp [hr2], hq2⟩

theorem bracketExpansion_key {e1 e2 : List (List Nat × Int)} {q : List Nat × Int}
    (hq : q ∈ bracketExpansion e1 e2) :
    ∃ p1 ∈ e1, ∃ p2 ∈ e2, q.1 = p1.1 ++ p2.1 ∨ q.1 = p2.1 ++ p1.1 := by
  unfold bracketExpansion at hq
  rcases key_mem_foldl_addTerm _ _ _ hq with ⟨r, hr, hqr⟩ | ⟨r, hr, hqr⟩
  · cases hr
  · rcases List.mem_flatMap.mp hr with ⟨p1, hp1, hr2⟩
    rcases List.mem_flatMap.mp hr2 with ⟨p2, hp2, hr3⟩
    rcases List.mem_cons.mp hr3 with rfl | hr4
    · exact ⟨p1, hp1, p2, hp2, Or.inl hqr⟩
    · rcases List.mem_singleton.mp hr4 with rfl
      exact ⟨p1, hp1, p2, hp2, Or.inr hqr⟩

theorem expansionFuel_multiset :
    ∀ (fuel : Nat) (w : List Nat) (p : List Nat × Int), p ∈ expansionFuel fuel w →
      Multiset.ofList p.1 = Multiset.ofList w := by
  intro fuel
  induction fuel with
  | zero =>
      intro w p hp
      simp only [expansionFuel, List.mem_singleton] at hp
      rw [hp]
  | succ fuel ih =>
      intro w p hp
      by_cases hw : w.length ≤ 1
      · simp only [expansionFuel, if_pos hw, List.mem_singleton] at hp
        rw [hp]
      · simp only [expansionFuel, if_neg hw] at hp
        rcases bracketExpansion_key hp with ⟨p1, hp1, p2, hp2, hkey⟩
        have h1 := ih (w.take (splitPoint w)) p1 hp1
        have h2 := ih (w.drop (splitPoint w)) p2 hp2
        have hsplit : Multiset.ofList (w.take (splitPoint w)) +
            Multiset.ofList (w.drop (splitPoint w)) = Multiset.ofList w := by
          rw [Multiset.coe_add, List.take_append_drop]
        rcases hkey with h | h <;> rw [h, ← Multiset.coe_add, h1, h2]
        · exact hsplit
        · rw [add_comm]
          exact hsplit

theorem expansion_multiset {w : List Nat} {p : List Nat × Int}
    (hp : p ∈ expansion w) : Multiset.ofList p.1 = Multiset.ofList w :=
  expansionFuel_multiset w.length w p hp

theorem expansion_word_length {w : List Nat} {p : List Nat × Int}
    (hp : p ∈ expansion w) : p.1.length = w.length := by
  have := congrArg Multiset.card (expansion_multiset hp)
  simpa [Multiset.coe_card] using this

theorem expansion_word_letters {a : Nat} {w : List Nat} {p : List Nat × Int}
    (hp : p ∈ expansion w) (hw : ∀ c ∈ w, c < a) : ∀ c ∈ p.1, c < a := by
  intro c hc
  have hmul := expansion_multiset hp
  have : c ∈ Multiset.ofList w := by
    rw [← hmul]
    simpa using hc
  exact hw c (by simpa using this)

theorem to_lyndon_basis_mem {s : LyndonSpec} {e : Nat × Nat × Int}
    (he : e ∈ (LyndonWords.word_init s).to_lyndon_basis) :
    ∃ x ∈ flatWords (LyndonWords.word_init s), ∃ p ∈ expansion x.word,
      e = (x.compressed_index, taIndex s.alphabet_size p.1, p.2) := by
  unfold LyndonWords.to_lyndon_basis at he
  rcases List.mem_flatMap.mp he with ⟨x, hx, he2⟩
  rcases List.mem_map.mp he2 with ⟨p, hp, rfl⟩
  exact ⟨x, hx, p, hp, rfl⟩

theorem to_lyndon_basis_bounds {s : LyndonSpec} {e : Nat × Nat × Int}
    (he : e ∈ (LyndonWords.word_init s).to_lyndon_basis) :
    e.1 < (LyndonWords.word_init s).amount ∧
      e.2.1 < signature_channels s.alphabet_size s.depth := by
  rcases to_lyndon_basis_mem he with ⟨x, hx, p, hp, rfl⟩
  refine ⟨compressed_index_lt_amount hx, ?_⟩
  have hword : x.word ∈ (lyndonListsUpTo s.alphabet_size s.depth).flatten := by
    rw [flatWords_word_init] at hx
    exact word_of_mem_mkWords hx
  rcases mem_flatten_lyndonListsUpTo.mp hword with ⟨h1, h2, h3, -⟩
  have hlen := expansion_word_length hp
  exact taIndex_lt_signature_channels (by omega) (by omega) (expansion_word_letters hp h3)

/- Sum manipulation helpers over lists of rationals. -/

theorem sum_map_swap {α β : Type _} (l1 : List α) (l2 : List β) (f : α → β → ℚ) :
    (l1.map fun x => (l2.map fun y => f x y).sum).sum =
      (l2.map fun y => (l1.map fun x => f x y).sum).sum := by
  induction l1 with
  | nil =>
      simp only [List.map_nil, List.sum_nil]
      rw [eq_comm]
      exact List.sum_eq_zero (by simp)
  | cons x xs ih =>
      simp only [List.map_cons, List.sum_cons, ih, ← List.sum_map_add]

theorem sum_ite_range (n i : Nat) (hin : i < n) (f : Nat → ℚ) :
    ((List.range n).map fun t => if i = t then f t else 0).sum = f i := by
  induction n with
  | zero => omega
  | succ n ih =>
      rw [List.range_succ, List.map_append, List.sum_append]
      by_cases hi : i = n
      · subst hi
        rw [List.sum_eq_zero, zero_add]
        · simp
        · intro y hy
          rcases List.mem_map.mp hy with ⟨t, ht, rfl⟩
          rw [if_neg]
          intro hEq
          rw [hEq] at ht
          exact absurd (List.mem_range.mp ht) (lt_irrefl _)
      · rw [ih (by omega)]
        simp [hi]

theorem sum_map_flatMap {α β : Type _} (l : List α) (f : α → List β) (g : β → ℚ) :
    ((l.flatMap f).map g).sum = (l.map fun x => ((f x).map g).sum).sum := by
  induction l with
  | nil => rfl
  | cons x xs ih => simp [List.flatMap_cons, List.map_append, List.sum_append, ih]

theorem dot_nil_left (y : List ℚ) : dot [] y = 0 := rfl

theorem dot_nil_right (x : List ℚ) : dot x [] = 0 := by
  cases x <;> rfl

theorem dot_cons (a b : ℚ) (x y : List ℚ) : dot (a :: x) (b :: y) = a * b + dot x y := by
  simp [dot]

theorem dot_range_map (f : Nat → ℚ) :
    ∀ (n : Nat) (g : List ℚ), g.length = n →
      dot ((List.range n).map f) g = ((List.range n).map fun i => f i * g.getD i 0).sum := by
  intro n
  induction n generalizing f with
  | zero =>
      intro g hg
      rw [List.length_eq_zero.mp hg]
      rfl
  | succ n ih =>
      intro g hg
      cases g with
      | nil => simp at hg
      | cons b g0 =>
          rw [List.range_succ_eq_map, List.map_cons, List.map_cons, dot_cons,
            List.map_map, List.map_map]
          have hg0 : g0.length = n := by simpa using hg
          have := ih (fun i => f (i + 1)) g0 hg0
          simp only [Function.comp_def, List.getD_cons_zero, List.getD_cons_succ, Nat.succ_eq_add_one]
          rw [show (fun i => f (Nat.succ i)) = (fun i => f (i + 1)) from rfl, this]
          rfl

theorem dot_comm (x y : List ℚ) : dot x y = dot y x := by
  induction x generalizing y with
  | nil => rw [dot_nil_left, dot_nil_right]
  | cons a x0 ih =>
      cases y with
      | nil => rw [dot_nil_left, dot_nil_right]
      | cons b y0 => rw [dot_cons, dot_cons, ih, mul_comm]

/-- C1 counterexample: at alphabet size 2 and depth 2, with the word
coefficient buffer that puts coefficient 1 on the non-Lyndon word [1, 0]
and 0 elsewhere, compress (which the source header documents as a plain
extraction of Lyndon-word coefficients) does not apply the section 4.3
sparse basis transform: the two disagree on the [0, 1] output entry. -/
theorem C1_counterexample :
    compress (LyndonWords.word_init ⟨2, 2⟩) [0, 0, 0, 0, 1, 0] ≠
      compress_spec (LyndonWords.word_init ⟨2, 2⟩) [0, 0, 0, 0, 1, 0] := by
  have h1 : compress (LyndonWords.word_init ⟨2, 2⟩) [0, 0, 0, 0, 1, 0] = [0, 0, 0] := by
    have h : LyndonWords.word_init ⟨2, 2⟩ =
        ⟨[[⟨[0], 0, 0, none⟩, ⟨[1], 1, 1, none⟩], [⟨[0, 1], 2, 3, none⟩]], 3, ⟨2, 2⟩⟩ := by
      decide
    rw [compress, h]
    simp [flatWords]
  have h2 : compress_spec (LyndonWords.word_init ⟨2, 2⟩) [0, 0, 0, 0, 1, 0] = [0, 0, -1] := by
    have h : (LyndonWords.word_init ⟨2, 2⟩).to_lyndon_basis =
        [(0, 0, 1), (1, 1, 1), (2, 3, 1), (2, 4, -1)] := by
      decide
    have ha : (LyndonWords.word_init ⟨2, 2⟩).amount = 3 := by decide
    rw [compress_spec, h, ha]
    simp +decide [apply_transform, List.range_succ]
  rw [h1, h2]
  intro hEq
  have := List.cons.inj hEq
  have := List.cons.inj this.2
  have h3 := (List.cons.inj this.2).1
  norm_num at h3

/-- C1 (amended): compress extracts one coefficient per Lyndon word, depth
class by depth class: the log-signature buffer has dimension amount, and
its i-th entry is the input word-coefficient at the i-th Lyndon word's
tensor_algebra_index. -/
theorem C1_compress_extracts (s : LyndonSpec) (input : List ℚ) (i : Nat)
    (hi : i < (flatWords (LyndonWords.word_init s)).length) :
    (compress (LyndonWords.word_init s) input).length = (LyndonWords.word_init s).amount ∧
    (compress (LyndonWords.word_init s) input).getD i 0 =
      input.getD
        (((flatWords (LyndonWords.word_init s)).getD i defaultWord).tensor_algebra_index) 0 := by
  constructor
  · rw [compress, List.length_map, ← amount_word_init]
  · rw [compress]
    have hlm : i < ((flatWords (LyndonWords.word_init s)).map
        fun w => input.getD w.tensor_algebra_index 0).length := by
      simpa using hi
    rw [List.getD_eq_getElem _ _ hlm, List.getElem_map, List.getD_eq_getElem _ _ hi]

/-- Witness for C1 (amended) at spec (2, 2), a concrete buffer and index 2. -/
theorem C1_witness :
    (compress (LyndonWords.word_init ⟨2, 2⟩) [1, 2, 3, 4, 5, 6]).length =
      (LyndonWords.word_init ⟨2, 2⟩).amount ∧
    (compress (LyndonWords.word_init ⟨2, 2⟩) [1, 2, 3, 4, 5, 6]).getD 2 0 =
      [1, 2, 3, 4, 5, 6].getD
        (((flatWords (LyndonWords.word_init ⟨2, 2⟩)).getD 2 defaultWord).tensor_algebra_index)
        0 :=
  C1_compress_extracts ⟨2, 2⟩ [1, 2, 3, 4, 5, 6] 2 (by decide)

/-- C4 counterexample: compress_backward is not the transpose (adjoint) of
the sparse transform applied by compress.  At alphabet size 2, depth 2,
with the buffer concentrated on the non-Lyndon word [1, 0] and upstream
gradient concentrated on the Lyndon word [0, 1], the adjoint pairing
identity for compress fails: the left pairing is 0, the right is -1. -/
theorem C4_counterexample :
    dot (compress (LyndonWords.word_init ⟨2, 2⟩) [0, 0, 0, 0, 1, 0]) [0, 0, 1] ≠
      dot [0, 0, 0, 0, 1, 0] (compress_backward ⟨2, 2⟩ [0, 0, 1]) := by
  have h1 : compress (LyndonWords.word_init ⟨2, 2⟩) [0, 0, 0, 0, 1, 0] = [0, 0, 0] := by
    have h : LyndonWords.word_init ⟨2, 2⟩ =
        ⟨[[⟨[0], 0, 0, none⟩, ⟨[1], 1, 1, none⟩], [⟨[0, 1], 2, 3, none⟩]], 3, ⟨2, 2⟩⟩ := by
      decide
    rw [compress, h]
    simp [flatWords]
  have h2 : compress_backward ⟨2, 2⟩ [0, 0, 1] = [0, 0, 0, 1, -1, 0] := by
    have h : (LyndonWords.word_init ⟨2, 2⟩).to_lyndon_basis =
        [(0, 0, 1), (1, 1, 1), (2, 3, 1), (2, 4, -1)] := by
      decide
    have hch : signature_channels 2 2 = 6 := by decide
    rw [compress_backward]
    rw [show (⟨2, 2⟩ : LyndonSpec).alphabet_size = 2 from rfl,
      show (⟨2, 2⟩ : LyndonSpec).depth = 2 from rfl, hch, h]
    simp +decide [List.range_succ]
  rw [h1, h2]
  have hd1 : dot [0, 0, 0] [0, 0, 1] = 0 := by
    simp [dot]
  have hd2 : dot [0, 0, 0, 0, 1, 0] [0, 0, 0, 1, -1, 0] = -1 := by
    simp [dot]
  rw [hd1, hd2]
  norm_num

theorem transform_adjoint (es : List (Nat × Nat × Int)) (Adim Ndim : Nat) (x g : List ℚ)
    (hx : x.length = Ndim) (hg : g.length = Adim)
    (hbound : ∀ e ∈ es, e.1 < Adim ∧ e.2.1 < Ndim) :
    dot (apply_transform es Adim x) g =
      dot x ((List.range Ndim).map fun t =>
        (es.map fun e => if e.2.1 = t then (e.2.2 : ℚ) * g.getD e.1 0 else 0).sum) := by
  rw [apply_transform, dot_range_map _ _ g hg, dot_comm, dot_range_map _ _ x hx]
  have h1 : (List.range Adim).map (fun i =>
      (es.map fun e => if e.1 = i then (e.2.2 : ℚ) * x.getD e.2.1 0 else 0).sum *
        g.getD i 0) =
      (List.range Adim).map (fun i =>
      (es.map fun e =>
        if e.1 = i then (e.2.2 : ℚ) * x.getD e.2.1 0 * g.getD i 0 else 0).sum) := by
    refine List.map_congr_left ?_
    intro i hi
    rw [← List.sum_map_mul_right]
    refine congrArg List.sum (List.map_congr_left ?_)
    intro e he
    by_cases hcase : e.1 = i <;> simp [hcase]
  have h2 : (List.range Ndim).map (fun t =>
      (es.map fun e => if e.2.1 = t then (e.2.2 : ℚ) * g.getD e.1 0 else 0).sum *
        x.getD t 0) =
      (List.range Ndim).map (fun t =>
      (es.map fun e =>
        if e.2.1 = t then (e.2.2 : ℚ) * g.getD e.1 0 * x.getD t 0 else 0).sum) := by
    refine List.map_congr_left ?_
    intro t2 ht2
    rw [← List.sum_map_mul_right]
    refine congrArg List.sum (List.map_congr_left ?_)
    intro e he
    by_cases hcase : e.2.1 = t2 <;> simp [hcase]
  rw [h1, h2, sum_map_swap (List.range Adim) es, sum_map_swap (List.range Ndim) es]
  refine congrArg List.sum (List.map_congr_left ?_)
  intro e he
  rw [sum_ite_range Adim e.1 (hbound e he).1, sum_ite_range Ndim e.2.1 (hbound e he).2]
  ring

/-- C4 (amended): compress_backward applies the transpose of the section 4.3
sparse basis transform, not of the extraction that compress performs: it
is adjoint to compress_spec (the spec's compress) under the dot-product
pairing, its entry at word index t accumulates coefficient times
grad_log_signature[lyndon.compressed_index] summed over every Lyndon word
whose expansion references the word at index t, and on an all-ones
upstream gradient it reproduces, at every word index, the sum of the
matching transform-matrix coefficients (the row sums of the transpose). -/
theorem C4_compress_backward_transpose (s : LyndonSpec) (input grad : List ℚ) (t : Nat)
    (hin : input.length = signature_channels s.alphabet_size s.depth)
    (hg : grad.length = (LyndonWords.word_init s).amount)
    (ht : t < signature_channels s.alphabet_size s.depth) :
    dot (compress_spec (LyndonWords.word_init s) input) grad =
      dot input (compress_backward s grad) ∧
    (compress_backward s grad).getD t 0 =
      ((flatWords (LyndonWords.word_init s)).map fun w =>
        ((expansion w.word).map fun p =>
          if taIndex s.alphabet_size p.1 = t then
            (p.2 : ℚ) * grad.getD w.compressed_index 0
          else 0).sum).sum ∧
    compress_backward s (List.replicate (LyndonWords.word_init s).amount 1) =
      (List.range (signature_channels s.alphabet_size s.depth)).map fun t2 =>
        (((LyndonWords.word_init s).to_lyndon_basis).map fun e =>
          if e.2.1 = t2 then (e.2.2 : ℚ) else 0).sum := by
  refine ⟨?_, ?_, ?_⟩
  · exact transform_adjoint ((LyndonWords.word_init s).to_lyndon_basis)
      (LyndonWords.word_init s).amount (signature_channels s.alphabet_size s.depth)
      input grad hin hg (fun e he => to_lyndon_basis_bounds he)
  · rw [compress_backward]
    rw [getD_range_map _ _ ht]
    rw [LyndonWords.to_lyndon_basis, sum_map_flatMap]
    refine congrArg List.sum (List.map_congr_left ?_)
    intro w hw
    rw [List.map_map]
    rfl
  · rw [compress_backward]
    refine List.map_congr_left ?_
    intro t2 ht2
    refine congrArg List.sum (List.map_congr_left ?_)
    intro e he
    have hb := (to_lyndon_basis_bounds he).1
    have hgd : (List.replicate (LyndonWords.word_init s).amount (1 : ℚ)).getD e.1 0 = 1 := by
      rw [List.getD_eq_getElem _ _ (by simpa using hb), List.getElem_replicate]
    rw [hgd, mul_one]

/-- Witness for C4 (amended) at spec (2, 2) with concrete buffers. -/
theorem C4_witness :
    dot (compress_spec (LyndonWords.word_init ⟨2, 2⟩) [1, 2, 3, 4, 5, 6]) [1, 1, 1] =
      dot [1, 2, 3, 4, 5, 6] (compress_backward ⟨2, 2⟩ [1, 1, 1]) :=
  (C4_compress_backward_transpose ⟨2, 2⟩ [1, 2, 3, 4, 5, 6] [1, 1, 1] 3
    (by decide) (by decide) (by decide)).1

/- Minimal cyclic periods of words, toward the Witt/Moebius count. -/

theorem firstPeriodFrom_spec (w : List Nat) :
    ∀ (fuel p : Nat), (∃ q, p ≤ q ∧ q < p + fuel ∧ w.rotate q = w) →
      p ≤ firstPeriodFrom w p fuel ∧ w.rotate (firstPeriodFrom w p fuel) = w ∧
        ∀ q, p ≤ q → q < firstPeriodFrom w p fuel → w.rotate q ≠ w := by
  intro fuel
  induction fuel with
  | zero =>
      rintro p ⟨q, hq1, hq2, -⟩
      omega
  | succ fuel ih =>
      intro p hex
      by_cases hp : w.rotate p = w
      · have hf : firstPeriodFrom w p (fuel + 1) = p := by
          simp [firstPeriodFrom, hp]
        rw [hf]
        exact ⟨le_refl _, hp, fun q h1 h2 => absurd (lt_of_le_of_lt h1 h2) (lt_irrefl _)⟩
      · have hf : firstPeriodFrom w p (fuel + 1) = firstPeriodFrom w (p + 1) fuel := by
          simp [firstPeriodFrom, hp]
        rw [hf]
        obtain ⟨q, hq1, hq2, hq3⟩ := hex
        have hqp : p + 1 ≤ q := by
          rcases Nat.eq_or_lt_of_le hq1 with rfl | h
          · exact absurd hq3 hp
          · omega
        obtain ⟨h1, h2, h3⟩ := ih (p + 1) ⟨q, hqp, by omega, hq3⟩
        refine ⟨by omega, h2, ?_⟩
        intro q2 hq21 hq22
        rcases Nat.eq_or_lt_of_le hq21 with rfl | h
        · exact hp
        · exact h3 q2 (by omega) hq22

theorem minPeriod_spec (w : List Nat) (hw : w ≠ []) :
    1 ≤ minPeriod w ∧ w.rotate (minPeriod w) = w ∧
      ∀ q, 1 ≤ q → q < minPeriod w → w.rotate q ≠ w := by
  have hlen : 0 < w.length := List.length_pos.mpr hw
  exact firstPeriodFrom_spec w w.length 1
    ⟨w.length, by omega, by omega, List.rotate_length w⟩

theorem minPeriod_le_length (w : List Nat) (hw : w ≠ []) : minPeriod w ≤ w.length := by
  by_contra h
  exact (minPeriod_spec w hw).2.2 w.length (by
      have := List.length_pos.mpr hw
      omega)
    (by omega) (List.rotate_length w)

theorem rotate_mul_period {w : List Nat} {p : Nat} (hp : w.rotate p = w) (m : Nat) :
    w.rotate (m * p) = w := by
  induction m with
  | zero => simp
  | succ m ih => rw [Nat.succ_mul, ← List.rotate_rotate, ih, hp]

theorem minPeriod_dvd {w : List Nat} (hw : w ≠ []) {p : Nat} (hp : w.rotate p = w) :
    minPeriod w ∣ p := by
  obtain ⟨hpos, hrot, hmin⟩ := minPeriod_spec w hw
  have hd : w.rotate (p % minPeriod w) = w := by
    have h1 : w.rotate (p / minPeriod w * minPeriod w + p % minPeriod w) = w := by
      rw [Nat.div_add_mod']
      exact hp
    rw [← List.rotate_rotate, rotate_mul_period hrot (p / minPeriod w)] at h1
    exact h1
  by_cases hz : p % minPeriod w = 0
  · exact Nat.dvd_of_mod_eq_zero hz
  · exact absurd hd (hmin (p % minPeriod w) (by omega) (Nat.mod_lt _ (by omega)))

theorem minPeriod_dvd_length (w : List Nat) (hw : w ≠ []) : minPeriod w ∣ w.length :=
  minPeriod_dvd hw (List.rotate_length w)

theorem getElem?_rotate_eq {w : List Nat} {p : Nat} (hp : w.rotate p = w)
    (j : Nat) (hj : j < w.length) :
    w[j]? = w[(j + p) % w.length]? := by
  have h0 : 0 < w.length := by omega
  have h1 : (w.rotate p)[j]? = w[(j + p) % w.length]? := by
    have hrl : j < (w.rotate p).length := by rw [List.length_rotate]; exact hj
    rw [List.getElem?_eq_getElem hrl, List.getElem?_eq_getElem (Nat.mod_lt _ h0)]
    exact congrArg some (List.getElem_rotate w p j hrl)
  rw [← h1, hp]

theorem rotate_eq_of_getElem? {w : List Nat} {p : Nat}
    (h : ∀ j, j < w.length → w[(j + p) % w.length]? = w[j]?) :
    w.rotate p = w := by
  cases hw : w with
  | nil => simp
  | cons c ws =>
      rw [← hw]
      have h0 : 0 < w.length := by rw [hw]; simp
      refine List.ext_getElem? ?_
      intro i
      by_cases hi : i < w.length
      · have hrl : i < (w.rotate p).length := by rw [List.length_rotate]; exact hi
        rw [List.getElem?_eq_getElem hrl, List.getElem?_eq_getElem hi]
        have h2 := List.getElem_rotate w p i hrl
        rw [h2]
        have h3 := h i hi
        rw [List.getElem?_eq_getElem (Nat.mod_lt _ h0), List.getElem?_eq_getElem hi] at h3
        exact congrArg some (Option.some.inj h3)
      · rw [List.getElem?_eq_none (by rw [List.length_rotate]; omega),
          List.getElem?_eq_none (by omega)]

theorem rotate_period_shift {t : List Nat} (j e : Nat) :
    (t.rotate j).rotate e = t.rotate j ↔ t.rotate e = t := by
  cases ht : t with
  | nil => simp
  | cons c ts =>
      rw [← ht]
      have hlen : 0 < t.length := by rw [ht]; simp
      constructor
      · intro h
        rw [List.rotate_rotate] at h
        have h2 := congrArg (fun l => List.rotate l (t.length * (j + 1) - j)) h
        simp only at h2
        rw [List.rotate_rotate, List.rotate_rotate] at h2
        have he1 : j + e + (t.length * (j + 1) - j) = t.length * (j + 1) + e := by
          have : j ≤ t.length * (j + 1) := by
            calc j ≤ 1 * (j + 1) := by omega
              _ ≤ t.length * (j + 1) := Nat.mul_le_mul_right _ (by omega)
          omega
        have he2 : j + (t.length * (j + 1) - j) = t.length * (j + 1) := by
          have : j ≤ t.length * (j + 1) := by
            calc j ≤ 1 * (j + 1) := by omega
              _ ≤ t.length * (j + 1) := Nat.mul_le_mul_right _ (by omega)
          omega
        rw [he1, he2] at h2
        have hml : t.rotate (t.length * (j + 1)) = t := by
          have := rotate_mul_period (List.rotate_length t) (j + 1)
          rw [Nat.mul_comm] at this
          exact this
        rw [← List.rotate_rotate, hml] at h2
        exact h2
      · intro h
        rw [List.rotate_rotate, show j + e = e + j from by omega, ← List.rotate_rotate, h]

theorem minPeriod_rotate (t : List Nat) (ht : t ≠ []) (j : Nat) :
    minPeriod (t.rotate j) = minPeriod t := by
  have hne : t.rotate j ≠ [] := by
    intro h
    have := congrArg List.length h
    rw [List.length_rotate] at this
    exact ht (List.length_eq_zero.mp this)
  have s1 := minPeriod_spec t ht
  have s2 := minPeriod_spec _ hne
  have h1 : minPeriod (t.rotate j) ≤ minPeriod t := by
    by_contra h
    exact s2.2.2 (minPeriod t) s1.1 (by omega) ((rotate_period_shift j _).mpr s1.2.1)
  have h2 : minPeriod t ≤ minPeriod (t.rotate j) := by
    by_contra h
    exact s1.2.2 (minPeriod (t.rotate j)) s2.1 (by omega)
      ((rotate_period_shift j _).mp s2.2.1)
  omega

theorem wpow_succ (u : List Nat) (m : Nat) : wpow u (m + 1) = u ++ wpow u m := by
  simp [wpow, List.replicate_succ]

theorem wpow_succ_right (u : List Nat) (m : Nat) : wpow u (m + 1) = wpow u m ++ u := by
  simp [wpow, List.replicate_succ', List.flatten_append]

theorem length_wpow (u : List Nat) (m : Nat) : (wpow u m).length = m * u.length := by
  induction m with
  | zero => simp [wpow]
  | succ m ih =>
      rw [wpow_succ, List.length_append, ih]
      ring

theorem getElem?_wpow (u : List Nat) (hu : u ≠ []) (m : Nat) (j : Nat)
    (hj : j < m * u.length) : (wpow u m)[j]? = u[j % u.length]? := by
  have hupos : 0 < u.length := List.length_pos.mpr hu
  induction m generalizing j with
  | zero => omega
  | succ m ih =>
      rw [wpow_succ]
      by_cases hju : j < u.length
      · rw [List.getElem?_append, if_pos hju, Nat.mod_eq_of_lt hju]
      · have hlen : u.length ≤ j := by omega
        rw [List.getElem?_append_right hlen, ih (j - u.length) (by
          rw [Nat.succ_mul] at hj
          omega)]
        rw [Nat.mod_eq_sub_mod hlen]

theorem take_wpow (u : List Nat) (m : Nat) (hm : 1 ≤ m) :
    (wpow u m).take u.length = u := by
  cases m with
  | zero => omega
  | succ m => rw [wpow_succ, List.take_left]

theorem eq_wpow_of_rotate {w : List Nat} (hw : w ≠ []) {d : Nat} (hd0 : 0 < d)
    (hrot : w.rotate d = w) (hdvd : d ∣ w.length) :
    w = wpow (w.take d) (w.length / d) := by
  have hwpos : 0 < w.length := List.length_pos.mpr hw
  have hdle : d ≤ w.length := Nat.le_of_dvd hwpos hdvd
  have htl : (w.take d).length = d := by rw [List.length_take]; omega
  have htne : w.take d ≠ [] := by
    intro h
    rw [h] at htl
    simp at htl
    omega
  have hml : w.length / d * d = w.length := Nat.div_mul_cancel hdvd
  have hmod : ∀ i, i < w.length → w[i]? = w[i % d]? := by
    intro i
    induction i using Nat.strong_induction_on with
    | _ i ih =>
        intro hi
        by_cases hid : i < d
        · rw [Nat.mod_eq_of_lt hid]
        · have h1 : w[i - d]? = w[i]? := by
            have h2 := getElem?_rotate_eq hrot (i - d) (by omega)
            rw [Nat.sub_add_cancel (by omega), Nat.mod_eq_of_lt hi] at h2
            exact h2
          rw [← h1, ih (i - d) (by omega) (by omega),
            ← Nat.mod_eq_sub_mod (show i ≥ d from by omega)]
  refine List.ext_getElem? ?_
  intro i
  by_cases hi : i < w.length
  · rw [getElem?_wpow _ htne _ i (by rw [htl]; omega), htl, hmod i hi]
    rw [List.getElem?_take, if_pos (Nat.mod_lt _ (by omega))]
  · rw [List.getElem?_eq_none (by omega), List.getElem?_eq_none (by
      rw [length_wpow, htl]
      omega)]

theorem rotate_wpow (u : List Nat) (m : Nat) (hm : 1 ≤ m) :
    (wpow u m).rotate u.length = wpow u m := by
  cases m with
  | zero => omega
  | succ m =>
      by_cases hu : u = []
      · subst hu
        simp [wpow]
      · have hul : u.length ≤ (wpow u (m + 1)).length := by
          rw [length_wpow]
          exact Nat.le_mul_of_pos_left _ (by omega)
        rw [List.rotate_eq_drop_append_take hul, wpow_succ, List.drop_left, List.take_left,
          ← wpow_succ_right]
        exact wpow_succ u m

theorem minPeriod_wpow {u : List Nat} (hu : u ≠ []) (hprim : minPeriod u = u.length)
    (m : Nat) (hm : 1 ≤ m) : minPeriod (wpow u m) = u.length := by
  have hupos : 0 < u.length := List.length_pos.mpr hu
  have hwlen : (wpow u m).length = m * u.length := length_wpow u m
  have hwne : wpow u m ≠ [] := by
    intro h
    have h2 := congrArg List.length h
    rw [hwlen] at h2
    simp only [List.length_nil, Nat.mul_eq_zero] at h2
    rcases h2 with h1 | h1 <;> omega
  have hper := rotate_wpow u m hm
  have hdvd := minPeriod_dvd hwne hper
  have hle : minPeriod (wpow u m) ≤ u.length := Nat.le_of_dvd hupos hdvd
  have hepos : 1 ≤ minPeriod (wpow u m) := (minPeriod_spec _ hwne).1
  have herot : (wpow u m).rotate (minPeriod (wpow u m)) = wpow u m :=
    (minPeriod_spec _ hwne).2.1
  have hurot : u.rotate (minPeriod (wpow u m)) = u := by
    refine rotate_eq_of_getElem? ?_
    intro j hj
    have hjw : j < (wpow u m).length := by
      rw [hwlen]
      have hle2 : u.length ≤ m * u.length :=
        Nat.le_mul_of_pos_left u.length (show 0 < m from by omega)
      omega
    have h1 : u[j]? = (wpow u m)[j]? := by
      rw [getElem?_wpow u hu m j (by rw [← hwlen]; exact hjw), Nat.mod_eq_of_lt hj]
    have h2 : (wpow u m)[j]? = (wpow u m)[(j + minPeriod (wpow u m)) % (wpow u m).length]? :=
      getElem?_rotate_eq herot j hjw
    have h3 : (wpow u m)[(j + minPeriod (wpow u m)) % (wpow u m).length]? =
        u[(j + minPeriod (wpow u m)) % u.length]? := by
      rw [getElem?_wpow u hu m _ (by
        rw [← hwlen]
        exact Nat.mod_lt _ (by rw [hwlen]; exact Nat.mul_pos (by omega) hupos))]
      rw [hwlen, Nat.mod_mod_of_dvd _ ⟨m, by ring⟩]
    rw [← h3, ← h2, ← h1]
  rcases Nat.lt_or_ge (minPeriod (wpow u m)) u.length with hlt | hge
  · exact absurd hurot ((minPeriod_spec u hu).2.2 _ hepos (by omega))
  · omega

theorem minPeriod_take_eq {w : List Nat} (hw : w ≠ []) :
    minPeriod (w.take (minPeriod w)) = minPeriod w := by
  have hwpos : 0 < w.length := List.length_pos.mpr hw
  have spec := minPeriod_spec w hw
  have hdvd := minPeriod_dvd_length w hw
  have hdle := minPeriod_le_length w hw
  have htlen : (w.take (minPeriod w)).length = minPeriod w := by
    rw [List.length_take]
    omega
  have htne : w.take (minPeriod w) ≠ [] := by
    intro h
    rw [h] at htlen
    simp at htlen
    omega
  have hte := minPeriod_spec _ htne
  have hle : minPeriod (w.take (minPeriod w)) ≤ minPeriod w := by
    have := minPeriod_le_length _ htne
    omega
  rcases Nat.lt_or_ge (minPeriod (w.take (minPeriod w))) (minPeriod w) with hlt | hge
  · exfalso
    have hterot := hte.2.1
    have hw_eq := eq_wpow_of_rotate hw (by omega) spec.2.1 hdvd
    have hchar : ∀ x, x < w.length → w[x]? = (w.take (minPeriod w))[x % minPeriod w]? := by
      intro x hx
      conv_lhs => rw [hw_eq]
      rw [getElem?_wpow _ htne _ x (by
        rw [htlen, Nat.div_mul_cancel hdvd]
        exact hx), htlen]
    have hwrot : w.rotate (minPeriod (w.take (minPeriod w))) = w := by
      refine rotate_eq_of_getElem? ?_
      intro j hj
      rw [hchar j hj, hchar _ (Nat.mod_lt _ (by omega))]
      rw [Nat.mod_mod_of_dvd _ hdvd]
      have h4 := getElem?_rotate_eq hterot (j % minPeriod w) (by
        rw [htlen]
        exact Nat.mod_lt _ (by omega))
      rw [htlen, Nat.mod_add_mod] at h4
      exact h4.symm
    exact spec.2.2 _ hte.1 hlt hwrot
  · omega

theorem rotate_inj_aux {t : List Nat} (ht : t ≠ [])
    (hprim : minPeriod t = t.length) {i j : Nat} (hi : i < t.length) (hj : j < t.length)
    (hle : i ≤ j) (hEq : t.rotate i = t.rotate j) : i = j := by
  have h1 : t.rotate (i + (t.length - j)) = t := by
    rw [← List.rotate_rotate, hEq, List.rotate_rotate,
      show j + (t.length - j) = t.length from by omega, List.rotate_length]
  have hdvd := minPeriod_dvd ht h1
  rw [hprim] at hdvd
  rcases hdvd with ⟨c, hc⟩
  match c with
  | 0 => omega
  | 1 => omega
  | (c + 2) =>
      exfalso
      have h2 : t.length * (c + 2) = t.length * c + 2 * t.length := by ring
      omega

theorem rotate_inj_of_primitive {t : List Nat} (ht : t ≠ [])
    (hprim : minPeriod t = t.length) {i j : Nat} (hi : i < t.length) (hj : j < t.length)
    (hEq : t.rotate i = t.rotate j) : i = j := by
  rcases Nat.le_total i j with h | h
  · exact rotate_inj_aux ht hprim hi hj h hEq
  · exact (rotate_inj_aux ht hprim hj hi h hEq.symm).symm

theorem lexLt_trans {x y z : List Nat} (h1 : lexLt x y) (h2 : lexLt y z) : lexLt x z :=
  (inferInstance : IsTrans (List Nat) (List.Lex fun a b => a < b)).trans x y z h1 h2

theorem lexLt_asymm {x y : List Nat} (h : lexLt x y) : ¬ lexLt y x :=
  (inferInstance : IsAsymm (List Nat) (List.Lex fun a b => a < b)).asymm x y h

theorem lexLt_trichotomy (x y : List Nat) : lexLt x y ∨ x = y ∨ lexLt y x :=
  (inferInstance : IsTrichotomous (List Nat) (List.Lex fun a b => a < b)).trichotomous x y

theorem exists_min_lexLt :
    ∀ (l : List (List Nat)), l ≠ [] → ∃ m ∈ l, ∀ v ∈ l, ¬ lexLt v m := by
  intro l
  induction l with
  | nil => exact fun hl => absurd rfl hl
  | cons x xs ih =>
      intro hl
      by_cases hxs : xs = []
      · subst hxs
        refine ⟨x, by simp, ?_⟩
        intro v hv
        rcases List.mem_singleton.mp hv with rfl
        exact lexLt_irrefl v
      · obtain ⟨m, hm, hmin⟩ := ih hxs
        by_cases hc : lexLt x m
        · refine ⟨x, by simp, ?_⟩
          intro v hv
          rcases List.mem_cons.mp hv with rfl | hv
          · exact lexLt_irrefl v
          · intro h2
            exact hmin v hv (lexLt_trans h2 hc)
        · refine ⟨m, by simp [hm], ?_⟩
          intro v hv
          rcases List.mem_cons.mp hv with rfl | hv
          · exact hc
          · exact hmin v hv

theorem isLyndon_primitive {u : List Nat} (hu : isLyndon u) :
    minPeriod u = u.length := by
  have hune := hu.1
  have hle := minPeriod_le_length u hune
  rcases Nat.lt_or_ge (minPeriod u) u.length with hlt | hge
  · exfalso
    have hp := (minPeriod_spec u hune).2.1
    have := hu.2 (minPeriod u) hlt (minPeriod_spec u hune).1
    rw [hp] at this
    exact lexLt_irrefl u this
  · omega

theorem isLyndon_min_rotations {u : List Nat} (hu : isLyndon u) (i : Nat)
    (hi : i < u.length) : ¬ lexLt (u.rotate i) u := by
  by_cases hi0 : i = 0
  · subst hi0
    rw [List.rotate_zero]
    exact lexLt_irrefl u
  · exact lexLt_asymm (hu.2 i hi (by omega))

theorem exists_lyndon_rotation {t : List Nat} (ht : t ≠ [])
    (hprim : minPeriod t = t.length) :
    ∃ j, j < t.length ∧ isLyndon (t.rotate j) := by
  have htpos : 0 < t.length := List.length_pos.mpr ht
  have hRne : (List.range t.length).map (t.rotate ·) ≠ [] := by
    intro h
    have := congrArg List.length h
    simp only [List.length_map, List.length_range, List.length_nil] at this
    omega
  obtain ⟨m, hm, hmin⟩ := exists_min_lexLt _ hRne
  rcases List.mem_map.mp hm with ⟨j, hj, rfl⟩
  rw [List.mem_range] at hj
  refine ⟨j, hj, ?_, ?_⟩
  · intro h
    have := congrArg List.length h
    rw [List.length_rotate, List.length_nil] at this
    omega
  · intro i hi hi0
    rw [List.length_rotate] at hi
    have hrr : (t.rotate j).rotate i = t.rotate ((j + i) % t.length) := by
      rw [List.rotate_rotate, ← List.rotate_mod]
    have hmem : (t.rotate j).rotate i ∈ (List.range t.length).map (t.rotate ·) := by
      rw [hrr]
      exact List.mem_map.mpr ⟨(j + i) % t.length,
        List.mem_range.mpr (Nat.mod_lt _ htpos), rfl⟩
    have hnlt := hmin _ hmem
    rcases lexLt_trichotomy (t.rotate j) ((t.rotate j).rotate i) with h | h | h
    · exact h
    · exfalso
      have hprim2 : minPeriod (t.rotate j) = (t.rotate j).length := by
        rw [minPeriod_rotate t ht j, List.length_rotate]
        exact hprim
      have hperiod : (t.rotate j).rotate i = t.rotate j := h.symm
      have hne2 : t.rotate j ≠ [] := by
        intro h2
        have := congrArg List.length h2
        rw [List.length_rotate, List.length_nil] at this
        omega
      have hdvd := minPeriod_dvd hne2 hperiod
      rw [hprim2, List.length_rotate] at hdvd
      have := Nat.le_of_dvd (by omega) hdvd
      omega
    · exact absurd h hnlt

theorem unique_lyndon_rotation {t : List Nat} (ht : t ≠ [])
    (hprim : minPeriod t = t.length) {j1 j2 : Nat} (hj1 : j1 < t.length)
    (hj2 : j2 < t.length) (h1 : isLyndon (t.rotate j1)) (h2 : isLyndon (t.rotate j2)) :
    j1 = j2 := by
  have htpos : 0 < t.length := List.length_pos.mpr ht
  have hrot12 : (t.rotate j1).rotate ((j2 + t.length - j1) % t.length) = t.rotate j2 := by
    rw [List.rotate_rotate, ← List.rotate_mod, Nat.add_mod_mod,
      show j1 + (j2 + t.length - j1) = j2 + t.length from by omega,
      Nat.add_mod_right, Nat.mod_eq_of_lt hj2]
  have hrot21 : (t.rotate j2).rotate ((j1 + t.length - j2) % t.length) = t.rotate j1 := by
    rw [List.rotate_rotate, ← List.rotate_mod, Nat.add_mod_mod,
      show j2 + (j1 + t.length - j2) = j1 + t.length from by omega,
      Nat.add_mod_right, Nat.mod_eq_of_lt hj1]
  by_cases he : (j2 + t.length - j1) % t.length = 0
  · have hEq : t.rotate j1 = t.rotate j2 := by
      rw [← hrot12, he, List.rotate_zero]
    exact rotate_inj_of_primitive ht hprim hj1 hj2 hEq
  · have hlt1 : lexLt (t.rotate j1) (t.rotate j2) := by
      rw [← hrot12]
      exact h1.2 _ (by rw [List.length_rotate]; exact Nat.mod_lt _ htpos) (by omega)
    by_cases he2 : (j1 + t.length - j2) % t.length = 0
    · have hEq : t.rotate j2 = t.rotate j1 := by
        rw [← hrot21, he2, List.rotate_zero]
      exact (rotate_inj_of_primitive ht hprim hj2 hj1 hEq).symm
    · have hlt2 : lexLt (t.rotate j2) (t.rotate j1) := by
        rw [← hrot21]
        exact h2.2 _ (by rw [List.length_rotate]; exact Nat.mod_lt _ htpos) (by omega)
      exact absurd hlt2 (lexLt_asymm hlt1)

theorem rotate_rotate_cancel {t : List Nat} {j : Nat} (hj : j < t.length) :
    (t.rotate j).rotate ((t.length - j) % t.length) = t := by
  rw [List.rotate_rotate, ← List.rotate_mod, Nat.add_mod_mod,
    show j + (t.length - j) = t.length from by omega, Nat.mod_self, List.rotate_zero]

theorem sub_mod_inj {d i1 i2 : Nat} (h1 : i1 < d) (h2 : i2 < d)
    (h : (d - i1) % d = (d - i2) % d) : i1 = i2 := by
  have e1 : (d - i1) % d = if i1 = 0 then 0 else d - i1 := by
    by_cases hz : i1 = 0
    · simp [hz]
    · rw [if_neg hz, Nat.mod_eq_of_lt (by omega)]
  have e2 : (d - i2) % d = if i2 = 0 then 0 else d - i2 := by
    by_cases hz : i2 = 0
    · simp [hz]
    · rw [if_neg hz, Nat.mod_eq_of_lt (by omega)]
  rw [e1, e2] at h
  by_cases hz1 : i1 = 0 <;> by_cases hz2 : i2 = 0
  · omega
  · rw [if_pos hz1, if_neg hz2] at h
    omega
  · rw [if_neg hz1, if_pos hz2] at h
    omega
  · rw [if_neg hz1, if_neg hz2] at h
    omega

theorem mem_wpow {u : List Nat} {m : Nat} {c : Nat} (hc : c ∈ wpow u m) : c ∈ u := by
  unfold wpow at hc
  rcases List.mem_flatten.mp hc with ⟨l, hl, hcl⟩
  have hlu := (List.mem_replicate.mp hl).2
  rw [hlu] at hcl
  exact hcl

theorem nodup_lyndonList (a d : Nat) : (lyndonList a d).Nodup :=
  List.Nodup.filter _ (nodup_allWords a d)

theorem fiber_card (a k d : Nat) (hk : 0 < k) (hdvd : d ∣ k) (hd0 : 0 < d) :
    ((allWords a k).toFinset.filter fun w => minPeriod w = d).card =
      d * (lyndonList a d).length := by
  have hm : 1 ≤ k / d := (Nat.one_le_div_iff hd0).mpr (Nat.le_of_dvd hk hdvd)
  have hbij : (Finset.range d ×ˢ (lyndonList a d).toFinset).card =
      ((allWords a k).toFinset.filter fun w => minPeriod w = d).card := by
    refine Finset.card_bij (fun p hp => wpow (p.2.rotate p.1) (k / d)) ?_ ?_ ?_
    · rintro ⟨i, u⟩ hp
      rw [Finset.mem_product] at hp
      obtain ⟨hi, hu⟩ := hp
      rw [Finset.mem_range] at hi
      rw [List.mem_toFinset] at hu
      obtain ⟨⟨hulen, hulet⟩, huly⟩ := mem_lyndonList.mp hu
      have hune : u ≠ [] := huly.1
      have hprim : minPeriod u = u.length := isLyndon_primitive huly
      have htlen : (u.rotate i).length = d := by rw [List.length_rotate, hulen]
      have htne : u.rotate i ≠ [] := by
        intro h
        have := congrArg List.length h
        rw [htlen, List.length_nil] at this
        omega
      have htprim : minPeriod (u.rotate i) = (u.rotate i).length := by
        rw [minPeriod_rotate u hune i, List.length_rotate]
        exact hprim
      have hwlen : (wpow (u.rotate i) (k / d)).length = k := by
        rw [length_wpow, htlen, Nat.div_mul_cancel hdvd]
      simp only [Finset.mem_filter, List.mem_toFinset]
      refine ⟨mem_allWords.mpr ⟨hwlen, ?_⟩, ?_⟩
      · intro c hc
        exact hulet c (List.mem_rotate.mp (mem_wpow hc))
      · rw [minPeriod_wpow htne htprim (k / d) hm, htlen]
    · rintro ⟨i1, u1⟩ hp1 ⟨i2, u2⟩ hp2 hEq
      rw [Finset.mem_product, Finset.mem_range, List.mem_toFinset] at hp1 hp2
      obtain ⟨hi1, hu1⟩ := hp1
      obtain ⟨hi2, hu2⟩ := hp2
      obtain ⟨⟨hu1len, hu1let⟩, hu1ly⟩ := mem_lyndonList.mp hu1
      obtain ⟨⟨hu2len, hu2let⟩, hu2ly⟩ := mem_lyndonList.mp hu2
      have hu1ne := hu1ly.1
      have hu2ne := hu2ly.1
      have ht1len : (u1.rotate i1).length = d := by rw [List.length_rotate, hu1len]
      have ht2len : (u2.rotate i2).length = d := by rw [List.length_rotate, hu2len]
      have h1 := take_wpow (u1.rotate i1) (k / d) hm
      rw [ht1len] at h1
      have h2 := take_wpow (u2.rotate i2) (k / d) hm
      rw [ht2len] at h2
      have htEq : u1.rotate i1 = u2.rotate i2 := by
        rw [← h1, ← h2]
        simp only at hEq
        rw [hEq]
      have ht1ne : u1.rotate i1 ≠ [] := by
        intro h
        have := congrArg List.length h
        rw [ht1len, List.length_nil] at this
        omega
      have hprim1 : minPeriod (u1.rotate i1) = (u1.rotate i1).length := by
        rw [minPeriod_rotate u1 hu1ne, List.length_rotate]
        exact isLyndon_primitive hu1ly
      have hback1 : (u1.rotate i1).rotate ((d - i1) % d) = u1 := by
        have hh := rotate_rotate_cancel (show i1 < u1.length from by rw [hu1len]; omega)
        rw [hu1len] at hh
        exact hh
      have hback2 : (u2.rotate i2).rotate ((d - i2) % d) = u2 := by
        have hh := rotate_rotate_cancel (show i2 < u2.length from by rw [hu2len]; omega)
        rw [hu2len] at hh
        exact hh
      have hLy1 : isLyndon ((u1.rotate i1).rotate ((d - i1) % d)) := by
        rw [hback1]
        exact hu1ly
      have hLy2 : isLyndon ((u1.rotate i1).rotate ((d - i2) % d)) := by
        rw [htEq, hback2]
        exact hu2ly
      have hjj := unique_lyndon_rotation ht1ne hprim1
        (by rw [ht1len]; exact Nat.mod_lt _ hd0)
        (by rw [ht1len]; exact Nat.mod_lt _ hd0) hLy1 hLy2
      have hii : i1 = i2 := sub_mod_inj hi1 hi2 hjj
      have huu : u1 = u2 := by
        rw [← hback1, hjj, htEq, hback2]
      rw [hii, huu]
    · intro w hw
      simp only [Finset.mem_filter, List.mem_toFinset] at hw
      obtain ⟨hwmem, hwper⟩ := hw
      obtain ⟨hwlen, hwlet⟩ := mem_allWords.mp hwmem
      have hwne : w ≠ [] := by
        intro h
        rw [h] at hwlen
        simp at hwlen
        omega
      have hrotd : w.rotate d = w := by
        have := (minPeriod_spec w hwne).2.1
        rwa [hwper] at this
      have hddl : d ∣ w.length := by rw [hwlen]; exact hdvd
      have hdec := eq_wpow_of_rotate hwne hd0 hrotd hddl
      have htlen : (w.take d).length = d := by
        rw [List.length_take]
        have : d ≤ w.length := Nat.le_of_dvd (by omega) hddl
        omega
      have htne : w.take d ≠ [] := by
        intro h
        rw [h] at htlen
        simp at htlen
        omega
      have htprim : minPeriod (w.take d) = (w.take d).length := by
        have h0 := minPeriod_take_eq hwne
        rw [hwper] at h0
        rw [htlen]
        exact h0
      obtain ⟨j, hj, hjly⟩ := exists_lyndon_rotation htne htprim
      rw [htlen] at hj
      refine ⟨((d - j) % d, (w.take d).rotate j), ?_, ?_⟩
      · rw [Finset.mem_product, Finset.mem_range, List.mem_toFinset]
        refine ⟨Nat.mod_lt _ hd0, mem_lyndonList.mpr ⟨⟨?_, ?_⟩, hjly⟩⟩
        · rw [List.length_rotate, htlen]
        · intro c hc
          exact hwlet c (List.take_subset d w (List.mem_rotate.mp hc))
      · have hback : ((w.take d).rotate j).rotate ((d - j) % d) = w.take d := by
          have hh := rotate_rotate_cancel (show j < (w.take d).length from by
            rw [htlen]; omega)
          rw [htlen] at hh
          exact hh
        simp only
        rw [hback]
        rw [hwlen] at hdec
        exact hdec.symm
  rw [← hbij, Finset.card_product, Finset.card_range,
    List.toFinset_card_of_nodup (nodup_lyndonList a d)]

theorem count_words_by_period (a k : Nat) (hk : 0 < k) :
    a ^ k = ∑ d ∈ k.divisors, d * (lyndonList a d).length := by
  have hcard : (allWords a k).toFinset.card = a ^ k := by
    rw [List.toFinset_card_of_nodup (nodup_allWords a k), length_allWords]
  have hfib : ∀ w ∈ (allWords a k).toFinset, minPeriod w ∈ k.divisors := by
    intro w hw
    rw [List.mem_toFinset] at hw
    obtain ⟨hwlen, -⟩ := mem_allWords.mp hw
    have hwne : w ≠ [] := by
      intro h
      rw [h] at hwlen
      simp at hwlen
      omega
    rw [Nat.mem_divisors]
    refine ⟨?_, by omega⟩
    have := minPeriod_dvd_length w hwne
    rwa [hwlen] at this
  rw [← hcard, Finset.card_eq_sum_card_fiberwise hfib]
  refine Finset.sum_congr rfl ?_
  intro d hd
  rcases Nat.mem_divisors.mp hd with ⟨hdvd, hk0⟩
  exact fiber_card a k d hk hdvd (Nat.pos_of_dvd_of_pos hdvd hk)

theorem witt_formula (a k : Nat) (hk : 0 < k) :
    (k : Int) * (lyndonList a k).length =
      ∑ e ∈ k.divisors, (ArithmeticFunction.moebius e : Int) * (a : Int) ^ (k / e) := by
  have hmain : ∀ n, 0 < n →
      ∑ i ∈ n.divisors, ((Nat.cast i : Int) * (Nat.cast (lyndonList a i).length : Int)) =
        (a : Int) ^ n := by
    intro n hn
    have h := count_words_by_period a n hn
    exact_mod_cast h.symm
  have hinv := ArithmeticFunction.sum_eq_iff_sum_mul_moebius_eq.mp hmain
  have h3 := hinv k hk
  simp only [Int.cast_id] at h3
  rw [Nat.sum_divisorsAntidiagonal
    (fun i j => (ArithmeticFunction.moebius i : Int) * (a : Int) ^ j)] at h3
  exact h3.symm

/-- C6: for every alphabet size a >= 1 and depth d >= 1, the number of Lyndon
words generated at each depth k in 1..d satisfies the classical
Witt/Moebius necklace-counting formula, k times the count equals the sum
over the divisors e of k of moebius(e) times a^(k/e); every word generated
at depth k has length exactly k; and the total amount generated is the sum
over k = 1..d of the per-depth counts. -/
theorem C6_witt_moebius_count (a d : Nat) (ha : 1 ≤ a) (hd : 1 ≤ d) :
    (∀ k, 1 ≤ k → k ≤ d →
      ((k : Int) * (lyndonList a k).length =
        ∑ e ∈ k.divisors, (ArithmeticFunction.moebius e : Int) * (a : Int) ^ (k / e)) ∧
      ∀ w ∈ lyndonList a k, w.length = k) ∧
    (LyndonWords.word_init ⟨a, d⟩).amount =
      ((List.range d).map fun j => (lyndonList a (j + 1)).length).sum := by
  refine ⟨?_, ?_⟩
  · intro k hk1 hk2
    refine ⟨witt_formula a k (by omega), ?_⟩
    intro w hw
    exact (mem_lyndonList.mp hw).1.1
  · show ((lyndonListsUpTo a d).map List.length).sum = _
    rw [lyndonListsUpTo, List.map_map]
    rfl

/-- Witness for C6 at alphabet size 2, depth 2: the depth-2 Moebius identity,
with the concrete count of depth-2 Lyndon words. -/
theorem C6_witness :
    ((2 : Int) * (lyndonList 2 2).length =
      ∑ e ∈ (2 : Nat).divisors, (ArithmeticFunction.moebius e : Int) * (2 : Int) ^ (2 / e)) ∧
    (lyndonList 2 2).length = 1 :=
  ⟨((C6_witt_moebius_count 2 2 (by decide) (by decide)).1 2 (by decide) (by decide)).1,
   by decide⟩

/-- Sanity check: the Lyndon words over two letters up to length 3. -/
theorem sanity_lyndonList :
    lyndonList 2 1 = [[0], [1]] ∧ lyndonList 2 2 = [[0, 1]] ∧
    lyndonList 2 3 = [[0, 0, 1], [0, 1, 1]] := by
  refine ⟨by decide, by decide, by decide⟩

/-- Sanity check: the concrete forest, expansion and transform at
alphabet size 2 and depth 2. -/
theorem sanity_forest :
    LyndonWords.word_init ⟨2, 2⟩ =
      ⟨[[⟨[0], 0, 0, none⟩, ⟨[1], 1, 1, none⟩], [⟨[0, 1], 2, 3, none⟩]], 3, ⟨2, 2⟩⟩ ∧
    expansion [0, 1] = [([0, 1], 1), ([1, 0], -1)] ∧
    (LyndonWords.word_init ⟨2, 2⟩).to_lyndon_basis =
      [(0, 0, 1), (1, 1, 1), (2, 3, 1), (2, 4, -1)] := by
  refine ⟨by decide, by decide, by decide⟩

end fla_ops

end signatory
